import Mathlib

/-!
Verification development for the guidoc layout-specification compiler
(src/guidoc/guidoc.py).  The Python source is shallowly embedded: each
Lean definition mirrors one Python function or a delimited fragment of
one, with strings modelled as `List Char` (or `String` at structure
boundaries), mutable tree building as explicit state passing, and
raised exceptions as `Except`/`Option` results.
-/

namespace Guidoc

/-- Characters Python's `str.strip` family removes and the regex class `\s`
matches for a Python 2 byte string. -/
def pySpace (c : Char) : Bool :=
  c = ' ' || c = '\t' || c = '\n' || c = '\r' || c = '\x0b' || c = '\x0c'

/-- Characters the regex class `\w` matches for a Python 2 byte pattern:
ASCII letters, digits and underscore. -/
def wordChar (c : Char) : Bool :=
  ('a' ≤ c && c ≤ 'z') || ('A' ≤ c && c ≤ 'Z') || ('0' ≤ c && c ≤ '9') || c = '_'

/-- Characters of the regex class `[\w.]` used for dotted widget kinds. -/
def wordDotChar (c : Char) : Bool :=
  wordChar c || c = '.'

/-- Python `str.lstrip()`. -/
def pyLstrip (l : List Char) : List Char := l.dropWhile pySpace

/-- Python `str.rstrip()`. -/
def pyRstrip (l : List Char) : List Char := (l.reverse.dropWhile pySpace).reverse

/-- Python `str.strip()`. -/
def pyStrip (l : List Char) : List Char := pyRstrip (pyLstrip l)

/-- Python `str.split(sep)` for a one-character separator: splits at every
occurrence and keeps empty pieces. -/
def pySplit (sep : Char) : List Char → List (List Char)
  | [] => [[]]
  | c :: rest =>
    let r := pySplit sep rest
    if c = sep then [] :: r
    else
      match r with
      | [] => [[c]]
      | h :: t => (c :: h) :: t

/-- Value of a non-empty all-digit string, as `int()` reads it. -/
def digitsVal (ds : List Char) : Option Nat :=
  if ds.isEmpty then none
  else if ds.all Char.isDigit then
    some (ds.foldl (fun a c => a * 10 + (c.toNat - '0'.toNat)) 0)
  else none

/-- Python `int(s)` on a string: surrounding whitespace allowed, optional
sign, then decimal digits; anything else raises ValueError (`none`). -/
def pyInt (l : List Char) : Option Int :=
  match pyStrip l with
  | '+' :: ds => (digitsVal ds).map Int.ofNat
  | '-' :: ds => (digitsVal ds).map (fun n => -(Int.ofNat n))
  | ds => (digitsVal ds).map Int.ofNat

/-- Python `str.find(ch)`: index of the first occurrence, `-1` if absent. -/
def pyFind (l : List Char) (c : Char) : Int :=
  match l.findIdx? (fun x => x == c) with
  | some n => Int.ofNat n
  | none => -1

/-- Rose tree of parsed nodes.  The Python source keeps the children inside
each node object as a mutable list; here the tree is built functionally. -/
inductive PTree (α : Type) where
  | node : α → List (PTree α) → PTree α

/-- Pre-order (node before children, siblings left to right) listing of the
values in a forest. -/
def preorderF {α : Type} : List (PTree α) → List α
  | [] => []
  | PTree.node a cs :: rest => a :: (preorderF cs ++ preorderF rest)

/-- Number of nodes in a forest. -/
def countF {α : Type} : List (PTree α) → Nat
  | [] => 0
  | PTree.node _ cs :: rest => 1 + countF cs + countF rest

/-! Indent tree builder: embedding of `parse_indented_list`.

The Python function keeps a stack of `(indent, sibling-list)` pairs where
each sibling list is a live reference into the tree being built (pushing a
frame stores `cur_level[-1].children`).  Functionally, each frame owns the
siblings appended at its level (kept in reverse), and discarding a frame
(`del stack[-1]`) corresponds to attaching its siblings as the trailing
children of the most recently appended node of the frame below, which is
exactly where the shared reference pointed. -/

/-- One stack frame of `parse_indented_list`: the recorded indent (the root
frame keeps `None` forever, as the tuple `stack[0]` is never rebuilt) and
the sibling nodes appended at this level, most recent first. -/
structure Frame (α : Type) where
  indent : Option Nat
  rnodes : List (PTree α)

/-- Merge the siblings of a finished deeper frame into the sibling list
below: they become the trailing children of the most recently appended
node there (that node's `children` list is what the deeper frame aliased
in the source). -/
def attachS {α : Type} : List (PTree α) → List (PTree α) → List (PTree α)
  | up, [] => up
  | up, PTree.node b cs :: gs => PTree.node b (cs ++ up.reverse) :: gs

/-- The `attachS` merge lifted to frames; the surviving frame keeps its own
recorded indent. -/
def Frame.attach {α : Type} (f g : Frame α) : Frame α :=
  ⟨g.indent, attachS f.rnodes g.rnodes⟩

/-- The popping loop of `parse_indented_list` for a line whose indent `i`
dropped below the current indent `ci`: frames are discarded while
`i < cur_indent` and more than one frame remains, where `cur_indent` is
re-read from each newly exposed frame and a recorded `None` (the root) is
replaced by `i`.  Returns the final `cur_indent`, the frame now on top and
the frames below it. -/
def popLoop {α : Type} (i : Nat) : Nat → Frame α → List (Frame α) → Nat × Frame α × List (Frame α)
  | ci, f, [] => (ci, f, [])
  | ci, f, g :: rest =>
    if i < ci then
      match g.indent with
      | none => (i, Frame.attach f g, rest)
      | some k => popLoop i k (Frame.attach f g) rest
    else (ci, f, g :: rest)

/-- Full parser state: the local variable `cur_indent` plus the non-empty
stack, split into its top frame and the frames below. -/
structure BState (α : Type) where
  curIndent : Option Nat
  top : Frame α
  below : List (Frame α)

/-- Processing of one line by `parse_indented_list`: `i` is the line's
leading-whitespace count and `a` the value the per-line parse function
returned for it. -/
def stepLine {α : Type} (st : BState α) (i : Nat) (a : α) : BState α :=
  let n : PTree α := PTree.node a []
  match st.curIndent with
  | none => ⟨some i, ⟨st.top.indent, n :: st.top.rnodes⟩, st.below⟩
  | some ci =>
    if i = ci then ⟨some ci, ⟨st.top.indent, n :: st.top.rnodes⟩, st.below⟩
    else if ci < i then ⟨some i, ⟨some i, [n]⟩, st.top :: st.below⟩
    else
      let r := popLoop i ci st.top st.below
      ⟨some r.1, ⟨r.2.1.indent, n :: r.2.1.rnodes⟩, r.2.2⟩

/-- State before the first line: `cur_indent = None` and the root frame. -/
def initState (α : Type) : BState α := ⟨none, ⟨none, []⟩, []⟩

/-- Read the finished forest out of the final stack: discarding the open
frames top-down attaches each to the level below, and the root sibling
list (kept reversed) is reversed back to line order. -/
def collapse {α : Type} : Frame α → List (Frame α) → List (PTree α)
  | f, [] => f.rnodes.reverse
  | f, g :: rest => collapse (Frame.attach f g) rest

/-- The body of `parse_indented_list` on lines already decomposed into
(indent, parsed value) pairs. -/
def buildForest {α : Type} (ps : List (Nat × α)) : List (PTree α) :=
  let st := ps.foldl (fun st p => stepLine st p.1 p.2) (initState α)
  collapse st.top st.below

/-- The function `parse_indented_list` itself: each line's indent is the
length lost to `lstrip()`, and the per-line parse function receives the
line stripped on both sides. -/
def parse_indented_list {α : Type} (lines : List (List Char)) (pf : List Char → α) : List (PTree α) :=
  buildForest (lines.map (fun l => ((l.length - (pyLstrip l).length : Nat), pf (pyRstrip (pyLstrip l)))))

/-! Section splitter: the comment stripping step of `parse_layout_spec`,
driven by `comment_re = ^(.*)\s*#.*$`. -/

/-- Test whether `comment_re` can close group 1 at index `j`: the greedy
backtracking succeeds there when the remainder of the line, after the
(greedy) `\s*`, starts with `#`. -/
def commentHashAt (l : List Char) (j : Nat) : Bool :=
  decide (((l.drop j).dropWhile pySpace).head? = some '#')

/-- End position of group 1 of `comment_re`: the greedy `(.*)` backtracks
from the right, so the match uses the greatest index at which the rest of
the pattern still matches. -/
def commentSplit (l : List Char) : Option Nat :=
  (List.range (l.length + 1)).reverse.find? (commentHashAt l)

/-- Comment stripping as performed per line in `parse_layout_spec`: when
`comment_re` matches, the line is replaced by its group 1. -/
def stripComment (l : List Char) : List Char :=
  match commentSplit l with
  | some j => l.take j
  | none => l

/-! Widget line classifier: `parse_widget_spec`, `widget_re`, `layout_re`
and `parse_params`. -/

/-- Result of matching `layout_re = <\s*(\w+)\s*(?:\|\s*([^>]*))?>$` at the
start of `l`, requiring the match to extend to the end of the line: the
manager name (group 1) and the optional parameter text (group 2).  The
pattern is deterministic: `\s`, `\w` and the literals are disjoint, and
`[^>]*` must stop at the closing `>`. -/
def layoutMatchAt : List Char → Option (List Char × Option (List Char))
  | '<' :: rest =>
    let r1 := rest.dropWhile pySpace
    let mgr := r1.takeWhile wordChar
    if mgr.isEmpty then none
    else
      match (r1.dropWhile wordChar).dropWhile pySpace with
      | '|' :: r3 =>
        let r4 := r3.dropWhile pySpace
        let body := r4.takeWhile (fun c => c != '>')
        match r4.dropWhile (fun c => c != '>') with
        | ['>'] => some (mgr, some body)
        | _ => none
      | ['>'] => some (mgr, none)
      | _ => none
  | _ => none

/-- The `layout_re.search` scan: positions are tried left to right and the
first one whose match reaches the end of the line wins; returns the match
start and the two groups. -/
def layoutSearchFrom : List Char → Nat → Option (Nat × (List Char × Option (List Char)))
  | l, idx =>
    match layoutMatchAt l with
    | some r => some (idx, r)
    | none =>
      match l with
      | [] => none
      | _ :: t => layoutSearchFrom t (idx + 1)

/-- The widget line with any trailing layout manager block removed, as done
by `line = line[:m.start()].rstrip()` when `layout_re` finds a match. -/
def stripLayoutBlock (line : List Char) : List Char :=
  match layoutSearchFrom line 0 with
  | some (j, _) => pyRstrip (line.take j)
  | none => line

/-- Result of `widget_re = ^(\w+)\s*\(\s*([\w.]+)\s*(?:\|\s*(.*))?\)$` on a
line: name, kind and the optional raw parameter text.  Greedy `(.*)` plus
the final `\)$` means the parameter text runs to the last character, which
must be `)`. -/
def widgetMatch (l : List Char) : Option (List Char × List Char × Option (List Char)) :=
  let nm := l.takeWhile wordChar
  if nm.isEmpty then none
  else
    match (l.dropWhile wordChar).dropWhile pySpace with
    | '(' :: r2 =>
      let r3 := r2.dropWhile pySpace
      let kd := r3.takeWhile wordDotChar
      if kd.isEmpty then none
      else
        match (r3.dropWhile wordDotChar).dropWhile pySpace with
        | '|' :: r5 =>
          let r6 := r5.dropWhile pySpace
          match r6.getLast? with
          | some ')' => some (nm, kd, some r6.dropLast)
          | _ => none
        | [')'] => some (nm, kd, none)
        | _ => none
    | _ => none

/-- Dictionary insertion `d[k] = v`: replace the value when the key exists,
append the binding otherwise. -/
def dictInsert {κ β : Type} [DecidableEq κ] (d : List (κ × β)) (k : κ) (v : β) : List (κ × β) :=
  if d.any (fun kv => decide (kv.1 = k)) then d.map (fun kv => if kv.1 = k then (k, v) else kv)
  else d ++ [(k, v)]

/-- The function `parse_params`: split on commas, strip each term, then
split each on `=` into exactly two stripped halves; any other shape raises
ParameterError (`none`). -/
def parse_params (ps : List Char) : Option (List (List Char × List Char)) :=
  ((pySplit ',' ps).map pyStrip).foldlM
    (fun d t =>
      match (pySplit '=' t).map pyStrip with
      | [k, v] => some (dictInsert d k v)
      | _ => none)
    []

/-- Specification record for one widget, mirroring `WidgetSpec` minus the
`children` list (the surrounding `PTree` holds the children). -/
structure WidgetSpec where
  name : String
  kind : String
  params : String
  layout_mgr : Option String
  layout_params : List (String × String)
deriving DecidableEq

/-- Errors `parse_widget_spec` can raise. -/
inductive WidgetErr where
  | widgetError (class_name : Option String) (line : String)
  | paramError (class_name : Option String) (params : String)
deriving DecidableEq

/-- The function `WidgetSection.parse_widget_spec`: strip a trailing layout
block, match the widget grammar, parse non-empty layout parameters, and
otherwise fail with a WidgetError naming the (stripped) line. -/
def parse_widget_spec (cn : Option String) (line : List Char) : Except WidgetErr WidgetSpec :=
  let lm : Option (List Char) :=
    match layoutSearchFrom line 0 with
    | some (_, (mgr, _)) => some mgr
    | none => none
  let lps : Option (List Char) :=
    match layoutSearchFrom line 0 with
    | some (_, (_, ps)) => ps
    | none => none
  match widgetMatch (stripLayoutBlock line) with
  | some (nm, kd, prms) =>
    let widget_params := match prms with | some p => p | none => []
    match lps with
    | some p =>
      if p.isEmpty then
        .ok ⟨String.mk nm, String.mk kd, String.mk widget_params, lm.map String.mk, []⟩
      else
        match parse_params p with
        | some d =>
          .ok ⟨String.mk nm, String.mk kd, String.mk widget_params, lm.map String.mk,
               d.map (fun kv => (String.mk kv.1, String.mk kv.2))⟩
        | none => .error (.paramError cn (String.mk p))
    | none => .ok ⟨String.mk nm, String.mk kd, String.mk widget_params, lm.map String.mk, []⟩
  | none => .error (.widgetError cn (String.mk (stripLayoutBlock line)))

/-! Menu line classifier: `MenuSpec.__init__`, `menu_re`, `menu_sep_re` and
`MenuSection.parse_menu_item`. -/

/-- Observable fields of a constructed `MenuSpec` (children live in the
surrounding tree). -/
structure MenuSpecV where
  label : String
  kind : String
  params : String
  underline : Int
deriving DecidableEq

/-- The constructor `MenuSpec.__init__`: strip a fully quoted label, record
the offset of the first `&` as the underline position and remove that
`&` from the stored label. -/
def mkMenuSpec (label0 : List Char) (kind : List Char) (params : List Char) : MenuSpecV :=
  let label1 :=
    if label0.length > 2 ∧ label0.head? = label0.getLast? ∧
        (label0.head? = some '"' ∨ label0.head? = some '\'') then
      (label0.drop 1).dropLast
    else label0
  let u := pyFind label1 '&'
  let label2 :=
    if u ≥ 0 ∧ label1.length > 1 then
      if u = 0 then label1.drop 1
      else label1.take u.toNat ++ label1.drop (u.toNat + 1)
    else label1
  ⟨String.mk label2, String.mk kind, String.mk params, u⟩

/-- The separator test `menu_sep_re = ^----`. -/
def menuSepMatch (l : List Char) : Bool :=
  match l with
  | '-' :: '-' :: '-' :: '-' :: _ => true
  | _ => false

/-- First alternative of the label group of `menu_re`: a non-empty run of
characters that are not whitespace or quotes. -/
def bareLabel (l : List Char) : Option (List Char × List Char) :=
  let lb := l.takeWhile (fun c => !(pySpace c) && c != '"' && c != '\'')
  if lb.isEmpty then none else some (lb, l.drop lb.length)

/-- Quoted alternatives of the label group: an opening quote, a non-empty
run without that quote, the closing quote; the group keeps the quotes. -/
def quotedLabel (q : Char) : List Char → Option (List Char × List Char)
  | c :: rest =>
    if c = q then
      let body := rest.takeWhile (fun x => x != q)
      if body.isEmpty then none
      else
        match rest.drop body.length with
        | z :: r2 => if z = q then some (q :: (body ++ [q]), r2) else none
        | [] => none
    else none
  | [] => none

/-- The label group `([^\s'"]+|"[^"]+"|'[^']+')` with the alternatives in
pattern order. -/
def menuLabel (l : List Char) : Option (List Char × List Char) :=
  match bareLabel l with
  | some r => some r
  | none =>
    match quotedLabel '"' l with
    | some r => some r
    | none => quotedLabel '\'' l

/-- The suffix `\s*(LABEL)\s*(.*)` of `menu_re`: skip whitespace, match the
label, skip whitespace, the rest of the line is group 3. -/
def menuCore (l : List Char) : Option (List Char × List Char) :=
  match menuLabel (l.dropWhile pySpace) with
  | some (lb, rest) => some (lb, rest.dropWhile pySpace)
  | none => none

/-- Full `menu_re.match`: the optional marker `(\*|\[\])?` is tried first;
when the rest of the pattern fails after a marker, backtracking retries
with the marker left empty.  Returns group 1 (the marker), group 2 (the
label) and group 3 (the parameter text). -/
def menuMatch (l : List Char) : Option (Option (List Char) × List Char × List Char) :=
  match l with
  | '*' :: rest =>
    (match menuCore rest with
     | some (lb, ps) => some (some ['*'], lb, ps)
     | none => (menuCore l).map (fun r => (none, r.1, r.2)))
  | '[' :: ']' :: rest =>
    (match menuCore rest with
     | some (lb, ps) => some (some ['[', ']'], lb, ps)
     | none => (menuCore l).map (fun r => (none, r.1, r.2)))
  | _ => (menuCore l).map (fun r => (none, r.1, r.2))

/-- Menu item kind selected by the marker group, as in
`MenuSection.parse_menu_item`. -/
def markerKind (mk : Option (List Char)) : List Char :=
  match mk with
  | some ['*'] => "radio".toList
  | some ['[', ']'] => "check".toList
  | _ => "normal".toList

/-- The function `MenuSection.parse_menu_item`: separators first, then the
menu grammar, and any line that matches neither becomes a normal item
whose label argument is the whole line. -/
def parse_menu_item (line : List Char) : MenuSpecV :=
  if menuSepMatch line then mkMenuSpec [] ("separator".toList) []
  else
    match menuMatch line with
    | some (mk, lb, ps) => mkMenuSpec lb (markerKind mk) ps
    | none => mkMenuSpec line ("normal".toList) []

/-! Grid extractor: `GridSection.parse`.  The docutils table parser is the
boundary collaborator; its output is modelled abstractly as rows of
entries carrying an optional single-paragraph text and optional span
counts, plus the table's column count.  Cell map accesses are checked:
`GridFail.indexError` models a Python IndexError. -/

/-- One `<entry>` element of a parsed table row. -/
structure GridEntry where
  widget : Option String
  morecols : Option Nat
  morerows : Option Nat

/-- Abstract result of the docutils table parse. -/
structure GridTable where
  numCols : Nat
  rows : List (List GridEntry)

/-- Failure modes of the extraction loop. -/
inductive GridFail where
  | gridError (row : Nat)
  | indexError
deriving DecidableEq

/-- Extracted grid placements: widget name to its parameter dictionary. -/
abbrev GridData := List (String × List (String × Nat))

/-- Checked read `cell_map[r][c]`. -/
def mGet (m : List (List Bool)) (r c : Nat) : Except GridFail Bool :=
  match m[r]? with
  | none => .error .indexError
  | some row =>
    match row[c]? with
    | none => .error .indexError
    | some b => .ok b

/-- Checked write `cell_map[r][c] = True`. -/
def mSet (m : List (List Bool)) (r c : Nat) : Except GridFail (List (List Bool)) :=
  match m[r]? with
  | none => .error .indexError
  | some row =>
    if c < row.length then .ok (m.set r (row.set c true)) else .error .indexError

/-- The occupied-origin loop
`while cell_map[cell_row][cell_col] and cell_col < num_cols`, walking the
part of the occupancy row from `cellCol` on (the lookup
`cell_map[cell_row][cell_col]` is the head of that suffix, and raises
IndexError when the suffix is empty; the bound test `cell_col < num_cols`
runs only after the lookup succeeded, exactly as in the Python `and`). -/
def advanceColGo (numCols : Nat) : List Bool → Nat → Nat → Except GridFail (Nat × Nat)
  | [], _, _ => .error .indexError
  | b :: rest, cellCol, colOffset =>
    if b then
      if cellCol < numCols then advanceColGo numCols rest (cellCol + 1) (colOffset + 1)
      else .ok (cellCol, colOffset)
    else .ok (cellCol, colOffset)

/-- The occupied-origin loop, entered at `cellCol`. -/
def advanceCol (cmRow : List Bool) (numCols : Nat) (cellCol colOffset : Nat) :
    Except GridFail (Nat × Nat) :=
  advanceColGo numCols (cmRow.drop cellCol) cellCol colOffset

/-- Marking of the spanned rectangle
`for n in xrange(cell_row, cell_row + h): for m in xrange(cell_col, cell_col + w): ...`. -/
def markCells (m : List (List Bool)) (r0 h c0 w : Nat) : Except GridFail (List (List Bool)) :=
  (List.range h).foldlM
    (fun acc dr => (List.range w).foldlM (fun acc2 dc => mSet acc2 (r0 + dr) (c0 + dc)) acc) m

/-- The row fetch `cell_map[cell_row]` done by the occupied-origin scan. -/
def fetchRow (cm : List (List Bool)) (rowIdx : Nat) : Except GridFail (List Bool) :=
  match cm[rowIdx]? with
  | some row => Except.ok row
  | none => Except.error GridFail.indexError

/-- The re-check `if cell_map[cell_row][cell_col]: raise GridError(...)`
after the scan stopped. -/
def checkLanding (rowIdx : Nat) (cm : List (List Bool)) (r : Nat × Nat) :
    Except GridFail (Nat × Nat) :=
  mGet cm rowIdx r.1 >>= fun b2 =>
    if b2 then Except.error (GridFail.gridError rowIdx) else Except.ok r

/-- Resolution of a cell origin: the occupancy test at the initial
coordinates, then (on an occupied origin) the scan and the GridError
re-check. -/
def resolveOrigin (numCols rowIdx c0 colOffset : Nat) (cm : List (List Bool)) :
    Except GridFail (Nat × Nat) :=
  mGet cm rowIdx c0 >>= fun b =>
    if b then
      fetchRow cm rowIdx >>= fun row =>
        advanceCol row numCols c0 colOffset >>= fun r =>
          checkLanding rowIdx cm r
    else Except.ok (c0, colOffset)

/-- The span bookkeeping of one entry: cell width and height from
`morecols`/`morerows`, the recorded parameter dictionary, and the column
offset for the rest of the row.  Returns
`(cellWidth, cellHeight, innerParams, colOffset2)`. -/
def entrySpans (e : GridEntry) (rowIdx cellCol colOffset1 : Nat) :
    Nat × Nat × List (String × Nat) × Nat :=
  let inner0 := [("row", rowIdx), ("column", cellCol)]
  let p1 :=
    match e.morecols with
    | some mc => (mc + 1, inner0 ++ [("columnspan", mc + 1)], colOffset1 + mc)
    | none => (1, inner0, colOffset1)
  let p2 :=
    match e.morerows with
    | some mr => (mr + 1, p1.2.1 ++ [("rowspan", mr + 1)])
    | none => (1, p1.2.1)
  (p1.1, p2.1, p2.2, p1.2.2)

/-- Processing of the entries of one row: `i` is the enumeration index and
`colOffset` the running offset caused by earlier spans in the row. -/
def processEntries (numCols rowIdx : Nat) :
    List GridEntry → Nat → Nat → List (List Bool) → GridData →
    Except GridFail (List (List Bool) × GridData)
  | [], _, _, cm, gd => .ok (cm, gd)
  | e :: es, i, colOffset, cm, gd =>
    match e.widget with
    | none => processEntries numCols rowIdx es (i + 1) colOffset cm gd
    | some w =>
      resolveOrigin numCols rowIdx (i + colOffset) colOffset cm >>= fun r =>
        markCells cm rowIdx (entrySpans e rowIdx r.1 r.2).2.1 r.1
            (entrySpans e rowIdx r.1 r.2).1 >>= fun cm1 =>
          processEntries numCols rowIdx es (i + 1) (entrySpans e rowIdx r.1 r.2).2.2.2 cm1
            (dictInsert gd w (entrySpans e rowIdx r.1 r.2).2.2.1)

/-- Row loop of `GridSection.parse`: the column offset restarts at zero for
each row. -/
def processRows (numCols : Nat) :
    List (List GridEntry) → Nat → List (List Bool) → GridData → Except GridFail GridData
  | [], _, _, gd => .ok gd
  | r :: rs, j, cm, gd =>
    processEntries numCols j r 0 0 cm gd >>= fun p =>
      processRows numCols rs (j + 1) p.1 p.2

/-- The table-extraction part of `GridSection.parse`: build the
`rows × numCols` occupancy map of `False` and walk the rows. -/
def gridParse (t : GridTable) : Except GridFail GridData :=
  let cm0 := List.replicate t.rows.length (List.replicate t.numCols false)
  processRows t.numCols t.rows 0 cm0 []

/-- All rows of an occupancy map have the table column count. -/
def rowsLen (m : List (List Bool)) (n : Nat) : Prop := ∀ row ∈ m, row.length = n

/-! Layout merger: the default-coordinate pass of `apply_grid_attributes`
(its final loop), operating on the direct children of one grid-bound
container. -/

/-- Membership test `k in d` for a parameter dictionary. -/
def pHas (ps : List (String × String)) (k : String) : Bool :=
  ps.any (fun kv => decide (kv.1 = k))

/-- Lookup `d[k]` for a parameter dictionary. -/
def pGet (ps : List (String × String)) (k : String) : Option String :=
  (ps.find? (fun kv => decide (kv.1 = k))).map (fun kv => kv.2)

/-- Assignment loop of the default-coordinate pass: only children whose
layout manager is `grid` receive a fresh row (the counter advancing per
assignment) and a default column `0`.  Assigned numbers are stored as
their decimal strings, standing for the Python ints. -/
def assignDefaults : List WidgetSpec → Int → List WidgetSpec
  | [], _ => []
  | c :: cs, nextRow =>
    if c.layout_mgr = some "grid" then
      let p :=
        if pHas c.layout_params "row" then (c, nextRow)
        else ({ c with layout_params := dictInsert c.layout_params "row" (toString nextRow) },
              nextRow + 1)
      let c2 :=
        if pHas p.1.layout_params "column" then p.1
        else { p.1 with layout_params := dictInsert p.1.layout_params "column" "0" }
      c2 :: assignDefaults cs p.2
    else c :: assignDefaults cs nextRow

/-- The per-container body of the final loop of `apply_grid_attributes`:
compute the maximum explicit integer row among the children (failing like
`max()` on an empty sequence, or like `int()` on a bad value, both caught
and re-raised as a LayoutError), then run the assignment loop from
`max + 1`. -/
def setDefaultGridCoords (w : List WidgetSpec) : Except Unit (List WidgetSpec) :=
  match (w.filterMap (fun c => pGet c.layout_params "row")).mapM (fun s => pyInt s.toList) with
  | none => .error ()
  | some vals =>
    match vals.max? with
    | none => .error ()
    | some maxRow => .ok (assignDefaults w (maxRow + 1))

/-! Orchestrator checks in `create_layout_method`: the widget/menu section
count gate and the per-container layout manager validation. -/

/-- Failures of the section count gate. -/
inductive SecErr where
  | missingSection
  | multipleWidgetSections
deriving DecidableEq

/-- The section count gate: zero widget and zero menu sections is an
error, more than one widget section is an error. -/
def sectionCountCheck (names : List String) : Option SecErr :=
  let widgets := names.filter (fun n => decide (n = "widgets"))
  let menus := names.filter (fun n => decide (n = "menu"))
  if widgets.length = 0 ∧ menus.length = 0 then some .missingSection
  else if widgets.length > 1 then some .multipleWidgetSections
  else none

/-- The recursion of `index_containers`: every widget with a non-empty
children list contributes a (parent, children) group. -/
def subContainers : List (PTree WidgetSpec) → List (Option WidgetSpec × List (PTree WidgetSpec))
  | [] => []
  | PTree.node v cs :: rest =>
    (if cs.isEmpty then [] else (some v, cs) :: subContainers cs) ++ subContainers rest

/-- The function `index_containers` applied at the root: the root group
(parent `None`) is always present. -/
def index_containers (ws : List (PTree WidgetSpec)) :
    List (Option WidgetSpec × List (PTree WidgetSpec)) :=
  (none, ws) :: subContainers ws

/-- Resolved layout managers of a sibling group:
`'pack' if c.layout_mgr is None else c.layout_mgr`. -/
def resolvedManagers (g : List (PTree WidgetSpec)) : List String :=
  g.map (fun t =>
    match t with
    | PTree.node v _ => match v.layout_mgr with | none => "pack" | some m => m)

/-- Data of the LayoutError raised on a manager mismatch: the reported
container name (`self` for the root) and the distinct managers found. -/
structure MgrConflict where
  container : String
  managers : List String
deriving DecidableEq

/-- The validation loop of `create_layout_method`: every non-empty group
must resolve to exactly one distinct manager. -/
def validateManagers : List (Option WidgetSpec × List (PTree WidgetSpec)) → Option MgrConflict
  | [] => none
  | (parent, g) :: rest =>
    if g.isEmpty then validateManagers rest
    else
      let uniq := (resolvedManagers g).dedup
      if uniq.length ≠ 1 then
        some ⟨(match parent with | some v => v.name | none => "self"), uniq⟩
      else validateManagers rest

/-! Widget section parsing and code emission (`WidgetSection.parse`,
`WidgetSpec.code`, `WidgetSection.generate_widget_code`). -/

/-- Python `', '.join`-style concatenation. -/
def pyJoin (sep : String) : List String → String
  | [] => ""
  | [s] => s
  | s :: rest => s ++ sep ++ pyJoin sep rest

/-- Python `lib_prefix.rstrip('.')`. -/
def rstripDots (s : String) : String :=
  String.mk ((s.toList.reverse.dropWhile (fun c => c == '.')).reverse)

/-- The generator `WidgetSpec.code`: the construction statement followed by
the layout manager call.  Whether the library module exposes the widget
class is namespace introspection on `globals()`, abstracted as the
`exposes` oracle. -/
def widgetCode (exposes : String → String → Bool) (libPfx : String) (w : WidgetSpec)
    (parent : String) : List String :=
  let lp := rstripDots libPfx
  let fullWidget := if exposes lp w.kind then lp ++ "." ++ w.kind else w.kind
  let args := if 0 < (pyStrip w.params.toList).length then [parent, w.params] else [parent]
  let mgr := match w.layout_mgr with | none => "pack" | some m => m
  let lparams := w.layout_params.map (fun kv => kv.1 ++ "=" ++ kv.2)
  ["self." ++ w.name ++ " = " ++ fullWidget ++ "(" ++ pyJoin ", " args ++ ")",
   "self." ++ w.name ++ "." ++ mgr ++ "(" ++ pyJoin ", " lparams ++ ")"]

/-- The generator `WidgetSection.generate_widget_code`: each widget's own
lines, then its children with the parent reference rebound to the new
instance, then the following siblings. -/
def generate_widget_code (exposes : String → String → Bool) (libPfx : String) :
    List (PTree WidgetSpec) → String → List String
  | [], _ => []
  | PTree.node w cs :: rest, parent =>
    widgetCode exposes libPfx w parent
      ++ generate_widget_code exposes libPfx cs ("self." ++ w.name)
      ++ generate_widget_code exposes libPfx rest parent

/-- The parse step of `WidgetSection.parse`: `parse_indented_list` with
`parse_widget_spec` as the per-line function.  The source parses each line
inside the tree-building loop and a syntax error aborts the whole parse;
parsing the lines first and building the tree from the parsed pairs yields
the same result and the same error condition. -/
def widgetSectionParse (cn : Option String) (lines : List (List Char)) :
    Except WidgetErr (List (PTree WidgetSpec)) := do
  let pairs ← lines.mapM (fun l =>
    (parse_widget_spec cn (pyRstrip (pyLstrip l))).map
      (fun w => ((l.length - (pyLstrip l).length : Nat), w)))
  .ok (buildForest pairs)

/-! Specification-side devices for the indent tree claims: a canonical
sibling-stack machine with explicit depths, the declarative forest whose
parent relation is `nearest preceding node at depth d - 1`, and flattening
of in-progress states. -/

/-- Canonical depth-indexed popping: `popS k` discards the `k` innermost
open sibling lists, each merging into the level below via `attachS`. -/
def popS {α : Type} : Nat → List (List (PTree α)) → List (List (PTree α))
  | 0, ss => ss
  | _ + 1, [] => []
  | _ + 1, [l] => [l]
  | k + 1, u :: b :: rest => popS k (attachS u b :: rest)

/-- Canonical machine step at declared depth `p.1`: open a new deeper list
when the depth exceeds the current one, otherwise pop back to that depth
and append a sibling. -/
def specStep {α : Type} (ss : List (List (PTree α))) (p : Nat × α) : List (List (PTree α)) :=
  let n : PTree α := PTree.node p.2 []
  if ss.length ≤ p.1 then [n] :: ss
  else
    match popS (ss.length - 1 - p.1) ss with
    | [] => [[n]]
    | l :: rest => (n :: l) :: rest

/-- Run of the canonical machine. -/
def specRun {α : Type} (ss : List (List (PTree α))) (ps : List (Nat × α)) :
    List (List (PTree α)) :=
  ps.foldl specStep ss

/-- Read the forest out of a canonical machine state. -/
def collapseS {α : Type} (ss : List (List (PTree α))) : List (PTree α) :=
  match popS (ss.length - 1) ss with
  | [] => []
  | l :: _ => l.reverse

/-- Declarative forest of a depth-annotated line list: a node's subtree is
the maximal following run of strictly deeper lines, so the parent of a
node at depth `d` is the nearest preceding node at depth `d - 1` and
siblings keep line order. -/
def specForest {α : Type} (lvl : Nat) : List (Nat × α) → List (PTree α)
  | [] => []
  | (_, a) :: rest =>
    PTree.node a (specForest (lvl + 1) (rest.takeWhile (fun q => decide (lvl < q.1))))
      :: specForest lvl (rest.dropWhile (fun q => decide (lvl < q.1)))
termination_by l => l.length
decreasing_by
  all_goals simp_wf
  · exact Nat.lt_succ_of_le (List.takeWhile_prefix _).length_le
  · exact Nat.lt_succ_of_le (List.dropWhile_suffix _).length_le

/-- Sibling lists of a canonical state, hung from an open head node: the
children collected so far plus the forest the remaining lines contribute,
split at the first line back at this level. -/
def specHang {α : Type} (lvl : Nat) (m : List (PTree α)) (ps : List (Nat × α)) :
    List (PTree α) :=
  match m with
  | PTree.node x cs :: m2 =>
    (specForest lvl (ps.dropWhile (fun q => decide (lvl < q.1)))).reverse
      ++ PTree.node x (cs ++ specForest (lvl + 1) (ps.takeWhile (fun q => decide (lvl < q.1)))) :: m2
  | [] => []

/-- Chain condition on depths: each line's depth exceeds its predecessor's
by at most one. -/
def wfChain {α : Type} : Nat → List (Nat × α) → Bool
  | _, [] => true
  | prev, (d, _) :: rest => decide (d ≤ prev + 1) && wfChain d rest

/-- Well-formed indented list: the first line is at depth zero and depths
never jump by more than one. -/
def wellFormed {α : Type} : List (Nat × α) → Bool
  | [] => true
  | (d, _) :: rest => decide (d = 0) && wfChain d rest

/-- All declared depths at least `lvl`. -/
def allGE {α : Type} (lvl : Nat) (ps : List (Nat × α)) : Bool :=
  ps.all (fun p => decide (lvl ≤ p.1))

/-- Indents of a depth-annotated list under a fixed `w`-spaces-per-level
scheme. -/
def scaleDepths {α : Type} (w : Nat) (ps : List (Nat × α)) : List (Nat × α) :=
  ps.map (fun p => (w * p.1, p.2))

/-- Encoding of a canonical state as `parse_indented_list` frames under a
`w`-spaces-per-level scheme: level `k ≥ 1` records indent `w * k`, the
root records `None`. -/
def encFrames {α : Type} (w : Nat) : List (List (PTree α)) → List (Frame α)
  | [] => []
  | [l] => [⟨none, l⟩]
  | l :: rest => ⟨some (w * rest.length), l⟩ :: encFrames w rest

/-- Encoding of a canonical state as a full `BState`. -/
def encSt {α : Type} (w : Nat) (ss : List (List (PTree α))) : BState α :=
  match encFrames w ss with
  | f :: rest => ⟨some (w * (ss.length - 1)), f, rest⟩
  | [] => initState α

/-- Does a frame accept indent `i` as its own level or an enclosing one?
The root (recorded `None`) accepts everything. -/
def admitsB {α : Type} (i : Nat) (f : Frame α) : Bool :=
  match f.indent with
  | none => true
  | some k => decide (k ≤ i)

/-- Flattening of an in-progress builder stack, outermost frames first. -/
def flatFrames {α : Type} : Frame α → List (Frame α) → List α
  | f, [] => preorderF f.rnodes.reverse
  | f, g :: rest => flatFrames g rest ++ preorderF f.rnodes.reverse

/-- Grid-managed child that still lacks an explicit row. -/
def needsRow (c : WidgetSpec) : Bool :=
  decide (c.layout_mgr = some "grid") && !(pHas c.layout_params "row")

/-- Grid-managed child that still lacks an explicit column. -/
def needsCol (c : WidgetSpec) : Bool :=
  decide (c.layout_mgr = some "grid") && !(pHas c.layout_params "column")

/-! Theorems.  General facts about pre-order listings first, then the
machinery and final theorem for each claim. -/

theorem preorderF_append {α : Type} (xs ys : List (PTree α)) :
    preorderF (xs ++ ys) = preorderF xs ++ preorderF ys := by
  induction xs with
  | nil => simp [preorderF]
  | cons x rest ih =>
    cases x with
    | node a cs => simp [preorderF, ih, List.append_assoc]

theorem length_preorderF {α : Type} :
    ∀ xs : List (PTree α), (preorderF xs).length = countF xs
  | [] => by simp [preorderF, countF]
  | PTree.node a cs :: rest => by
    have hcs := length_preorderF cs
    have hrest := length_preorderF rest
    simp [preorderF, countF, hcs, hrest]
    omega

theorem attachS_preorder {α : Type} (up below : List (PTree α)) :
    preorderF ((attachS up below).reverse) = preorderF below.reverse ++ preorderF up.reverse := by
  cases below with
  | nil => simp [attachS, preorderF]
  | cons t gs =>
    cases t with
    | node b cs =>
      simp [attachS, preorderF, preorderF_append, List.append_assoc]

theorem flatFrames_attach {α : Type} (f g : Frame α) (rest : List (Frame α)) :
    flatFrames (Frame.attach f g) rest = flatFrames f (g :: rest) := by
  cases rest with
  | nil => simp [flatFrames, Frame.attach, attachS_preorder]
  | cons h rs => simp [flatFrames, Frame.attach, attachS_preorder, List.append_assoc]

theorem flatFrames_cons {α : Type} (ind : Option Nat) (n : PTree α) (rn : List (PTree α))
    (rest : List (Frame α)) :
    flatFrames ⟨ind, n :: rn⟩ rest = flatFrames (⟨ind, rn⟩ : Frame α) rest ++ preorderF [n] := by
  cases rest with
  | nil => simp [flatFrames, preorderF_append]
  | cons h rs => simp [flatFrames, preorderF_append, List.append_assoc]

theorem popLoop_flat {α : Type} (i : Nat) :
    ∀ (ci : Nat) (f : Frame α) (rest : List (Frame α)),
      flatFrames (popLoop i ci f rest).2.1 (popLoop i ci f rest).2.2 = flatFrames f rest
  | _, _, [] => by simp [popLoop]
  | ci, f, g :: rest => by
    by_cases h : i < ci
    · cases hg : g.indent with
      | none => simp [popLoop, h, hg, flatFrames_attach]
      | some k =>
        have ih := popLoop_flat i k (Frame.attach f g) rest
        simp [popLoop, h, hg, ih, flatFrames_attach]
    · simp [popLoop, h]

theorem collapse_preorder {α : Type} :
    ∀ (f : Frame α) (rest : List (Frame α)), preorderF (collapse f rest) = flatFrames f rest
  | _, [] => by simp [collapse, flatFrames]
  | f, g :: rest => by
    have ih := collapse_preorder (Frame.attach f g) rest
    simp [collapse, ih, flatFrames_attach]

theorem stepLine_flat {α : Type} (st : BState α) (i : Nat) (a : α) :
    flatFrames (stepLine st i a).top (stepLine st i a).below
      = flatFrames st.top st.below ++ [a] := by
  cases hci : st.curIndent with
  | none =>
    have h := flatFrames_cons st.top.indent (PTree.node a []) st.top.rnodes st.below
    simp [stepLine, hci, h, preorderF]
  | some ci =>
    by_cases heq : i = ci
    · have h := flatFrames_cons st.top.indent (PTree.node a []) st.top.rnodes st.below
      simp [stepLine, hci, heq, h, preorderF]
    · by_cases hlt : ci < i
      · simp [stepLine, hci, heq, hlt, flatFrames, preorderF]
      · have hpop := popLoop_flat i ci st.top st.below
        have h := flatFrames_cons (popLoop i ci st.top st.below).2.1.indent (PTree.node a [])
          (popLoop i ci st.top st.below).2.1.rnodes (popLoop i ci st.top st.below).2.2
        simp [stepLine, hci, heq, hlt, preorderF] at h ⊢
        rw [h, ← hpop]

theorem foldl_stepLine_flat {α : Type} :
    ∀ (ps : List (Nat × α)) (st : BState α),
      flatFrames (ps.foldl (fun s p => stepLine s p.1 p.2) st).top
          (ps.foldl (fun s p => stepLine s p.1 p.2) st).below
        = flatFrames st.top st.below ++ ps.map (fun p => p.2)
  | [], st => by simp
  | p :: ps, st => by
    have ih := foldl_stepLine_flat ps (stepLine st p.1 p.2)
    simp only [List.foldl_cons, List.map_cons, ih, stepLine_flat, List.append_assoc,
      List.singleton_append]

/-- C10: the forest built by the indent tree builder contains exactly one
node per input line, and a left-to-right pre-order traversal visits the
nodes in the original line order, for every line sequence and every
per-line parse function (which receives each line stripped, as in the
source). -/
theorem parse_indented_list_preorder {α : Type} (lines : List (List Char)) (pf : List Char → α) :
    preorderF (parse_indented_list lines pf)
        = lines.map (fun l => pf (pyRstrip (pyLstrip l)))
      ∧ countF (parse_indented_list lines pf) = lines.length := by
  have h1 : preorderF (parse_indented_list lines pf)
      = lines.map (fun l => pf (pyRstrip (pyLstrip l))) := by
    show preorderF (collapse _ _) = _
    rw [collapse_preorder, foldl_stepLine_flat]
    simp [initState, flatFrames, preorderF, List.map_map, Function.comp]
  refine ⟨h1, ?_⟩
  have h2 := length_preorderF (parse_indented_list lines pf)
  rw [h1] at h2
  simpa using h2.symm

theorem popLoop_nearest {α : Type} :
    ∀ (rest : List (Frame α)) (ci i : Nat) (f : Frame α),
      i < ci →
      (rest ≠ [] → f.indent = some ci) →
      (∀ z, (f :: rest).getLast? = some z → z.indent = none) →
      ∃ j g gs,
        (f :: rest).drop j = g :: gs ∧
        (∀ h ∈ (f :: rest).take j, admitsB i h = false) ∧
        admitsB i g = true ∧
        (popLoop i ci f rest).2.1.indent = g.indent ∧
        (popLoop i ci f rest).2.2 = gs
  | [], ci, i, f, hlt, _, hlast => by
    refine ⟨0, f, [], rfl, by simp, ?_, by simp [popLoop], by simp [popLoop]⟩
    have hf := hlast f (by simp)
    simp [admitsB, hf]
  | g :: rest, ci, i, f, hlt, hsome, hlast => by
    have hf : f.indent = some ci := hsome (by simp)
    have hfadm : admitsB i f = false := by
      simp [admitsB, hf]
      omega
    cases hg : g.indent with
    | none =>
      refine ⟨1, g, rest, by simp, ?_, by simp [admitsB, hg], ?_, ?_⟩
      · intro h hm
        simp at hm
        subst hm
        exact hfadm
      · simp [popLoop, hlt, hg, Frame.attach]
      · simp [popLoop, hlt, hg]
    | some k =>
      by_cases hik : i < k
      · cases rest with
        | nil =>
          have := hlast g (by simp)
          rw [hg] at this
          cases this
        | cons r rs =>
          have hlast2 : ∀ z, (Frame.attach f g :: r :: rs).getLast? = some z → z.indent = none := by
            intro z hz
            apply hlast
            simpa [List.getLast?_cons_cons] using hz
          have hsome2 : (r :: rs) ≠ ([] : List (Frame α)) → (Frame.attach f g).indent = some k := by
            intro _
            simp [Frame.attach, hg]
          obtain ⟨j, g2, gs, hdrop, htake, hadm, hind, hbelow⟩ :=
            popLoop_nearest (r :: rs) k i (Frame.attach f g) hik hsome2 hlast2
          have hres : popLoop i ci f (g :: r :: rs) = popLoop i k (Frame.attach f g) (r :: rs) := by
            simp [popLoop, hlt, hg]
          have hgadm : admitsB i g = false := by
            simp [admitsB, hg]
            omega
          cases j with
          | zero =>
            simp at hdrop
            refine ⟨1, g, r :: rs, by simp, ?_, ?_, ?_, ?_⟩
            · intro h hm
              simp at hm
              subst hm
              exact hfadm
            · have : admitsB i g2 = admitsB i g := by
                rw [← hdrop.1]
                simp [admitsB, Frame.attach, hg]
              rw [← this]
              exact hadm
            · rw [hres, hind, ← hdrop.1]
              simp [Frame.attach, hg]
            · rw [hres, hbelow, hdrop.2]
          | succ j2 =>
            refine ⟨j2 + 2, g2, gs, ?_, ?_, hadm, ?_, ?_⟩
            · have : (Frame.attach f g :: r :: rs).drop (j2 + 1) = (r :: rs).drop j2 := by
                simp
              rw [this] at hdrop
              simpa using hdrop
            · intro h hm
              have hmem : h = f ∨ h = g ∨ h ∈ (r :: rs).take j2 := by
                simpa [List.take] using hm
              rcases hmem with rfl | rfl | hmem
              · exact hfadm
              · exact hgadm
              · exact htake h (by simp [List.take, hmem])
            · rw [hres]
              exact hind
            · rw [hres]
              exact hbelow
      · refine ⟨1, g, rest, by simp, ?_, ?_, ?_, ?_⟩
        · intro h hm
          simp at hm
          subst hm
          exact hfadm
        · simp [admitsB, hg]
          omega
        · cases rest with
          | nil => simp [popLoop, hlt, hg, hik, Frame.attach]
          | cons r rs => simp [popLoop, hlt, hg, hik, Frame.attach]
        · cases rest with
          | nil => simp [popLoop, hlt, hg, hik]
          | cons r rs => simp [popLoop, hlt, hg, hik]

theorem popS_nil {α : Type} : ∀ k, popS k ([] : List (List (PTree α))) = []
  | 0 => rfl
  | _ + 1 => rfl

theorem popS_single {α : Type} (l : List (PTree α)) : ∀ k, popS k [l] = [l]
  | 0 => rfl
  | _ + 1 => rfl

theorem popS_length {α : Type} :
    ∀ (k : Nat) (ss : List (List (PTree α))), k < ss.length → (popS k ss).length = ss.length - k
  | 0, ss, _ => by simp [popS]
  | k + 1, [], h => by simp at h
  | k + 1, [l], h => by
    simp at h
  | k + 1, u :: b :: rest, h => by
    have h2 : k < (attachS u b :: rest).length := by
      simp only [List.length_cons] at h ⊢
      omega
    have ih := popS_length k (attachS u b :: rest) h2
    show (popS k (attachS u b :: rest)).length = (u :: b :: rest).length - (k + 1)
    rw [ih]
    simp only [List.length_cons]
    omega

theorem popS_add {α : Type} :
    ∀ (a b : Nat) (ss : List (List (PTree α))), popS (a + b) ss = popS b (popS a ss)
  | 0, b, ss => by simp [popS]
  | a + 1, b, [] => by simp [popS_nil]
  | a + 1, b, [l] => by simp [popS_single]
  | a + 1, b, u :: c :: rest => by
    have h1 : a + 1 + b = (a + b) + 1 := by omega
    rw [h1]
    show popS (a + b) (attachS u c :: rest) = popS b (popS a (attachS u c :: rest))
    exact popS_add a b (attachS u c :: rest)

theorem encFrames_cons {α : Type} (w : Nat) (l : List (PTree α)) (rest : List (List (PTree α))) :
    encFrames w (l :: rest)
      = ⟨if rest.isEmpty then none else some (w * rest.length), l⟩ :: encFrames w rest := by
  cases rest <;> simp [encFrames]

theorem encSt_cons {α : Type} (w : Nat) (l : List (PTree α)) (rest : List (List (PTree α))) :
    encSt w (l :: rest)
      = ⟨some (w * rest.length),
         ⟨if rest.isEmpty then none else some (w * rest.length), l⟩, encFrames w rest⟩ := by
  simp [encSt, encFrames_cons]

theorem sim_pop {α : Type} (w : Nat) (hw : 0 < w) :
    ∀ (below : List (List (PTree α))) (u : List (PTree α)) (d : Nat), d < below.length →
      ∃ l2 rest2,
        popS (below.length - d) (u :: below) = l2 :: rest2 ∧
        popLoop (w * d) (w * below.length) ⟨some (w * below.length), u⟩ (encFrames w below)
          = (w * d, ⟨if rest2.isEmpty then none else some (w * rest2.length), l2⟩,
             encFrames w rest2)
  | [], _, d, hd => by simp at hd
  | b :: bs, u, d, hd => by
    cases bs with
    | nil =>
      have hd0 : d = 0 := by simp at hd; omega
      subst hd0
      refine ⟨attachS u b, [], ?_, ?_⟩
      · simp [popS]
      · have hlt : w * 0 < w * 1 := by omega
        have hw2 : ¬ w = 0 := by omega
        simp [encFrames, popLoop, hlt, hw2, Frame.attach, attachS]
    | cons b2 bs2 =>
      have hlt : w * d < w * (b :: b2 :: bs2).length := (mul_lt_mul_left hw).mpr hd
      by_cases hdb : d < (b2 :: bs2).length
      · obtain ⟨l2, rest2, hpop, hloop⟩ := sim_pop w hw (b2 :: bs2) (attachS u b) d hdb
        refine ⟨l2, rest2, ?_, ?_⟩
        · have harith : (b :: b2 :: bs2).length - d = ((b2 :: bs2).length - d) + 1 := by
            simp only [List.length_cons] at hdb ⊢
            omega
          rw [harith]
          show popS ((b2 :: bs2).length - d) (attachS u b :: b2 :: bs2) = l2 :: rest2
          exact hpop
        · rw [encFrames_cons w b (b2 :: bs2)]
          simp only [List.isEmpty_cons, if_neg, Bool.false_eq_true, not_false_eq_true,
            ite_false]
          rw [popLoop, if_pos hlt]
          show popLoop (w * d) (w * (b2 :: bs2).length)
              (Frame.attach ⟨some (w * (b :: b2 :: bs2).length), u⟩
                ⟨some (w * (b2 :: bs2).length), b⟩) (encFrames w (b2 :: bs2)) = _
          have hat : Frame.attach ⟨some (w * (b :: b2 :: bs2).length), u⟩
              ⟨some (w * (b2 :: bs2).length), b⟩
                = (⟨some (w * (b2 :: bs2).length), attachS u b⟩ : Frame α) := rfl
          rw [hat]
          exact hloop
      · have hdeq : d = (b2 :: bs2).length := by
          simp only [List.length_cons] at hd hdb ⊢
          omega
        subst hdeq
        refine ⟨attachS u b, b2 :: bs2, ?_, ?_⟩
        · have harith : (b :: b2 :: bs2).length - (b2 :: bs2).length = 1 := by
            simp only [List.length_cons]
            omega
          rw [harith]
          rfl
        · rw [encFrames_cons w b (b2 :: bs2)]
          simp only [List.isEmpty_cons, Bool.false_eq_true, not_false_eq_true, ite_false]
          rw [popLoop, if_pos hlt]
          show popLoop (w * (b2 :: bs2).length) (w * (b2 :: bs2).length)
              (Frame.attach ⟨some (w * (b :: b2 :: bs2).length), u⟩
                ⟨some (w * (b2 :: bs2).length), b⟩) (encFrames w (b2 :: bs2)) = _
          rw [encFrames_cons w b2 bs2]
          rw [popLoop, if_neg (lt_irrefl _)]
          rw [← encFrames_cons w b2 bs2]
          rfl

theorem sim_step {α : Type} (w : Nat) (hw : 0 < w) (l : List (PTree α))
    (rest : List (List (PTree α))) (d : Nat) (hd : d ≤ (l :: rest).length) (a : α) :
    stepLine (encSt w (l :: rest)) (w * d) a = encSt w (specStep (l :: rest) (d, a)) := by
  rcases Nat.lt_trichotomy d rest.length with hdL | hdL | hdL
  · cases rest with
    | nil => simp at hdL
    | cons r rs =>
      obtain ⟨l2, rest2, hpop, hloop⟩ := sim_pop w hw (r :: rs) l d hdL
      have hne : ¬ (w * d = w * (r :: rs).length) := fun h =>
        absurd (Nat.eq_of_mul_eq_mul_left hw h) (by omega)
      have hnlt : ¬ (w * (r :: rs).length < w * d) := by
        intro h
        exact absurd ((mul_lt_mul_left hw).mp h) (by omega)
      have hlen2 : rest2.length = d := by
        have hcnt : (r :: rs).length - d < (l :: r :: rs).length := by
          simp only [List.length_cons]
          omega
        have h1 := popS_length ((r :: rs).length - d) (l :: r :: rs) hcnt
        rw [hpop] at h1
        simp only [List.length_cons] at h1 hdL
        omega
      have hcount : (l :: r :: rs).length - 1 - d = (r :: rs).length - d := by
        simp only [List.length_cons]
        omega
      have hpush : ¬ ((l :: r :: rs).length ≤ d) := by
        simp only [List.length_cons] at hdL ⊢
        omega
      rw [encSt_cons]
      simp only [stepLine, if_neg hne, if_neg hnlt, List.isEmpty_cons, Bool.false_eq_true,
        not_false_eq_true, ite_false]
      rw [hloop]
      simp only [specStep, if_neg hpush, hcount, hpop]
      rw [encSt_cons, hlen2]
  · subst hdL
    have hpush : ¬ ((l :: rest).length ≤ rest.length) := by
      simp only [List.length_cons]
      omega
    have hcount : (l :: rest).length - 1 - rest.length = 0 := by
      simp only [List.length_cons]
      omega
    rw [encSt_cons]
    simp only [stepLine, if_pos rfl, ite_true, specStep, if_neg hpush, hcount, popS]
    rw [encSt_cons]
  · have hdeq : d = rest.length + 1 := by
      simp only [List.length_cons] at hd
      omega
    subst hdeq
    have hlt : w * rest.length < w * (rest.length + 1) := by
      have := (mul_lt_mul_left hw).mpr (Nat.lt_succ_self rest.length)
      exact this
    have hne : ¬ (w * (rest.length + 1) = w * rest.length) := fun h =>
      absurd (Nat.eq_of_mul_eq_mul_left hw h) (by omega)
    have hpush : (l :: rest).length ≤ rest.length + 1 := by
      simp only [List.length_cons]
      omega
    rw [encSt_cons]
    simp only [stepLine, if_neg hne, if_pos hlt, specStep, if_pos hpush]
    rw [encSt_cons]
    simp only [List.isEmpty_cons, Bool.false_eq_true, not_false_eq_true, ite_false,
      List.length_cons]
    rw [encFrames_cons]

theorem specStep_length {α : Type} (ss : List (List (PTree α))) (hne : ss ≠ []) (d : Nat)
    (hd : d ≤ ss.length) (a : α) : (specStep ss (d, a)).length = d + 1 := by
  by_cases hp : ss.length ≤ d
  · have hde : d = ss.length := by omega
    simp [specStep, hp, hde]
  · have hlen1 : 1 ≤ ss.length := by
      cases ss with
      | nil => exact absurd rfl hne
      | cons s srest => simp
    have hcnt : ss.length - 1 - d < ss.length := by omega
    have h1 := popS_length (ss.length - 1 - d) ss hcnt
    cases hpop : popS (ss.length - 1 - d) ss with
    | nil =>
      rw [hpop] at h1
      simp at h1
      omega
    | cons l2 rest2 =>
      rw [hpop] at h1
      simp only [List.length_cons] at h1
      simp only [specStep, if_neg hp, hpop, List.length_cons]
      omega

theorem sim_run {α : Type} (w : Nat) (hw : 0 < w) :
    ∀ (ps : List (Nat × α)) (ss : List (List (PTree α))), ss ≠ [] →
      wfChain (ss.length - 1) ps = true →
      (scaleDepths w ps).foldl (fun s p => stepLine s p.1 p.2) (encSt w ss)
        = encSt w (specRun ss ps)
  | [], ss, _, _ => by simp [scaleDepths, specRun]
  | (d, a) :: ps, ss, hne, hwf => by
    cases ss with
    | nil => exact absurd rfl hne
    | cons s srest =>
      simp only [wfChain, Bool.and_eq_true, decide_eq_true_eq] at hwf
      obtain ⟨hdle, hwf2⟩ := hwf
      have hd : d ≤ (s :: srest).length := by
        simp only [List.length_cons] at hdle ⊢
        omega
      have hstep := sim_step w hw s srest d hd a
      have hlen := specStep_length (s :: srest) (by simp) d hd a
      have hne2 : specStep (s :: srest) (d, a) ≠ [] := by
        intro hc
        rw [hc] at hlen
        simp at hlen
      have ih := sim_run w hw ps (specStep (s :: srest) (d, a)) hne2 (by rw [hlen]; simpa)
      simp only [scaleDepths, List.map_cons, List.foldl_cons] at ih ⊢
      rw [hstep]
      rw [show specRun (s :: srest) ((d, a) :: ps) = specRun (specStep (s :: srest) (d, a)) ps
        from by simp [specRun]]
      exact ih

theorem collapse_enc {α : Type} (w : Nat) :
    ∀ (rest : List (List (PTree α))) (l : List (PTree α)),
      collapse ⟨if rest.isEmpty then none else some (w * rest.length), l⟩ (encFrames w rest)
        = collapseS (l :: rest)
  | [], l => by simp [encFrames, collapse, collapseS, popS]
  | b :: bs, l => by
    have ih := collapse_enc w bs (attachS l b)
    rw [encFrames_cons]
    show collapse
        (Frame.attach ⟨if (b :: bs).isEmpty then none else some (w * (b :: bs).length), l⟩
          ⟨if bs.isEmpty then none else some (w * bs.length), b⟩)
        (encFrames w bs) = collapseS (l :: b :: bs)
    have hat : Frame.attach
        (⟨if (b :: bs).isEmpty then none else some (w * (b :: bs).length), l⟩ : Frame α)
        ⟨if bs.isEmpty then none else some (w * bs.length), b⟩
        = ⟨if bs.isEmpty then none else some (w * bs.length), attachS l b⟩ := rfl
    rw [hat, ih]
    show collapseS (attachS l b :: bs) = collapseS (l :: b :: bs)
    have hc1 : (l :: b :: bs).length - 1 = ((attachS l b :: bs).length - 1) + 1 := by
      simp only [List.length_cons]
      omega
    simp only [collapseS, hc1]
    rfl

theorem specHang_single_rev {α : Type} (lvl : Nat) (b : α) (d : Nat) (t : List (Nat × α)) :
    (specHang lvl [PTree.node b []] t).reverse = specForest lvl ((d, b) :: t) := by
  simp [specHang, specForest]

theorem specHang_sibling {α : Type} (lvl : Nat) (x b : α) (cs m2 : List (PTree α)) (d : Nat)
    (tail : List (Nat × α)) (hnd : ¬ lvl < d) :
    specHang lvl (PTree.node b [] :: PTree.node x cs :: m2) tail
      = specHang lvl (PTree.node x cs :: m2) ((d, b) :: tail) := by
  simp [specHang, specForest, List.takeWhile_cons, List.dropWhile_cons, hnd]

theorem specHang_close {α : Type} (lvl : Nat) (x b : α) (cs m2 : List (PTree α)) (d : Nat)
    (tail : List (Nat × α)) (hd : lvl < d)
    (hdrop : tail.dropWhile (fun q => decide (lvl < q.1)) = []) :
    (PTree.node x
        (cs ++ specForest (lvl + 1) ((d, b) :: tail.takeWhile (fun q => decide (lvl < q.1))))
      :: m2)
      = specHang lvl (PTree.node x cs :: m2) ((d, b) :: tail) := by
  simp [specHang, List.takeWhile_cons, List.dropWhile_cons, hd, hdrop, specForest]

theorem specHang_cascade {α : Type} (lvl : Nat) (x b c : α) (cs m2 : List (PTree α))
    (d d2 : Nat) (tail outerT2 : List (Nat × α)) (hd : lvl < d)
    (hdrop : tail.dropWhile (fun q => decide (lvl < q.1)) = (d2, c) :: outerT2) :
    specHang lvl
        (PTree.node c []
          :: PTree.node x
              (cs ++ specForest (lvl + 1)
                ((d, b) :: tail.takeWhile (fun q => decide (lvl < q.1))))
          :: m2) outerT2
      = specHang lvl (PTree.node x cs :: m2) ((d, b) :: tail) := by
  simp [specHang, List.takeWhile_cons, List.dropWhile_cons, hd, hdrop, specForest,
    List.append_assoc]

theorem wfChain_append_left {α : Type} :
    ∀ (p : Nat) (xs ys : List (Nat × α)), wfChain p (xs ++ ys) = true → wfChain p xs = true
  | _, [], _, _ => rfl
  | p, (d, a) :: xs, ys, h => by
    simp only [List.cons_append, wfChain, Bool.and_eq_true, decide_eq_true_eq] at h ⊢
    exact ⟨h.1, wfChain_append_left d xs ys h.2⟩

theorem wfChain_middle {α : Type} :
    ∀ (p : Nat) (xs : List (Nat × α)) (d : Nat) (c : α) (ys : List (Nat × α)),
      wfChain p (xs ++ (d, c) :: ys) = true → wfChain d ys = true
  | _, [], _, _, _, h => by
    simp only [List.nil_append, wfChain, Bool.and_eq_true] at h
    exact h.2
  | _, (e, _) :: xs, d, c, ys, h => by
    simp only [List.cons_append, wfChain, Bool.and_eq_true] at h
    exact wfChain_middle e xs d c ys h.2

theorem dropWhile_head_not {α : Type} (q : α → Bool) :
    ∀ (l : List α) (x : α) (xs : List α), l.dropWhile q = x :: xs → q x = false
  | [], _, _, h => by simp at h
  | y :: l, x, xs, h => by
    by_cases hy : q y
    · rw [List.dropWhile_cons_of_pos hy] at h
      exact dropWhile_head_not q l x xs h
    · rw [List.dropWhile_cons_of_neg hy] at h
      cases h
      simpa using hy

theorem specRun_hang {α : Type} :
    ∀ (ps : List (Nat × α)) (lvl : Nat) (x : α) (cs m2 : List (PTree α))
      (rest : List (List (PTree α))),
      rest.length = lvl → allGE lvl ps = true → wfChain lvl ps = true →
      lvl + 1 ≤ (specRun ((PTree.node x cs :: m2) :: rest) ps).length ∧
      popS ((specRun ((PTree.node x cs :: m2) :: rest) ps).length - 1 - lvl)
          (specRun ((PTree.node x cs :: m2) :: rest) ps)
        = specHang lvl (PTree.node x cs :: m2) ps :: rest
  | [], lvl, x, cs, m2, rest, hrest, _, _ => by
    constructor
    · simp [specRun, hrest]
    · have hc : (specRun ((PTree.node x cs :: m2) :: rest) []).length - 1 - lvl = 0 := by
        simp [specRun, hrest]
      rw [hc]
      simp [specRun, popS, specHang, specForest]
  | (d, b) :: tail, lvl, x, cs, m2, rest, hrest, hge, hwf => by
    simp only [allGE, List.all_cons, Bool.and_eq_true, decide_eq_true_eq] at hge
    obtain ⟨hdge, hgeT⟩ := hge
    simp only [wfChain, Bool.and_eq_true, decide_eq_true_eq] at hwf
    obtain ⟨hdle, hwfT⟩ := hwf
    by_cases hdl : d = lvl
    · subst hdl
      have hnp : ¬ (rest.length + 1 ≤ d) := by omega
      have hc0 : rest.length - d = 0 := by omega
      have hstep : specStep ((PTree.node x cs :: m2) :: rest) (d, b)
          = (PTree.node b [] :: PTree.node x cs :: m2) :: rest := by
        simp [specStep, hnp, hc0, popS]
      have hrun : specRun ((PTree.node x cs :: m2) :: rest) ((d, b) :: tail)
          = specRun ((PTree.node b [] :: PTree.node x cs :: m2) :: rest) tail := by
        simp [specRun, hstep]
      obtain ⟨ihlen, ihpop⟩ := specRun_hang tail d b [] (PTree.node x cs :: m2) rest hrest
        (by simpa [allGE] using hgeT) hwfT
      rw [hrun]
      refine ⟨ihlen, ?_⟩
      rw [ihpop, specHang_sibling d x b cs m2 d tail (lt_irrefl d)]
    · have hd1 : d = lvl + 1 := by omega
      subst hd1
      have htail : tail.takeWhile (fun q => decide (lvl < q.1))
          ++ tail.dropWhile (fun q => decide (lvl < q.1)) = tail :=
        List.takeWhile_append_dropWhile (fun q => decide (lvl < q.1)) tail
      have hstep : specStep ((PTree.node x cs :: m2) :: rest) (lvl + 1, b)
          = [PTree.node b []] :: (PTree.node x cs :: m2) :: rest := by
        simp [specStep, hrest]
      have hrun1 : specRun ((PTree.node x cs :: m2) :: rest) ((lvl + 1, b) :: tail)
          = specRun (specRun ([PTree.node b []] :: (PTree.node x cs :: m2) :: rest)
              (tail.takeWhile (fun q => decide (lvl < q.1))))
              (tail.dropWhile (fun q => decide (lvl < q.1))) := by
        conv_lhs => rw [← htail]
        show List.foldl specStep ((PTree.node x cs :: m2) :: rest)
            ((lvl + 1, b) :: (tail.takeWhile (fun q => decide (lvl < q.1))
              ++ tail.dropWhile (fun q => decide (lvl < q.1)))) = _
        rw [List.foldl_cons, hstep, List.foldl_append]
        rfl
      have hgeInner : allGE (lvl + 1) (tail.takeWhile (fun q => decide (lvl < q.1))) = true := by
        simp only [allGE, List.all_eq_true, decide_eq_true_eq]
        intro p hp
        have := List.mem_takeWhile_imp hp
        simp only [decide_eq_true_eq] at this
        omega
      have hwfInner : wfChain (lvl + 1) (tail.takeWhile (fun q => decide (lvl < q.1))) = true := by
        apply wfChain_append_left (lvl + 1) _ (tail.dropWhile (fun q => decide (lvl < q.1)))
        rw [htail]
        exact hwfT
      obtain ⟨ih1len, ih1pop⟩ := specRun_hang (tail.takeWhile (fun q => decide (lvl < q.1)))
        (lvl + 1) b [] [] ((PTree.node x cs :: m2) :: rest) (by simp [hrest]) hgeInner hwfInner
      have hsplit : (specRun ([PTree.node b []] :: (PTree.node x cs :: m2) :: rest)
            (tail.takeWhile (fun q => decide (lvl < q.1)))).length - 1 - lvl
          = ((specRun ([PTree.node b []] :: (PTree.node x cs :: m2) :: rest)
            (tail.takeWhile (fun q => decide (lvl < q.1)))).length - 1 - (lvl + 1)) + 1 := by
        omega
      have hKpop : popS ((specRun ([PTree.node b []] :: (PTree.node x cs :: m2) :: rest)
            (tail.takeWhile (fun q => decide (lvl < q.1)))).length - 1 - lvl)
            (specRun ([PTree.node b []] :: (PTree.node x cs :: m2) :: rest)
              (tail.takeWhile (fun q => decide (lvl < q.1))))
          = (PTree.node x (cs ++ specForest (lvl + 1)
              ((lvl + 1, b) :: tail.takeWhile (fun q => decide (lvl < q.1)))) :: m2) :: rest := by
        rw [hsplit, popS_add, ih1pop]
        simp [popS, attachS, specHang_single_rev (lvl + 1) b (lvl + 1)]
      cases houter : tail.dropWhile (fun q => decide (lvl < q.1)) with
      | nil =>
        rw [hrun1, houter]
        rw [show ∀ ss : List (List (PTree α)), specRun ss [] = ss from fun _ => rfl]
        constructor
        · omega
        · rw [hKpop, specHang_close lvl x b cs m2 (lvl + 1) tail (by omega) houter]
      | cons p outerT2 =>
        obtain ⟨d2, c⟩ := p
        have hd2f : decide (lvl < d2) = false := by
          have := dropWhile_head_not (fun q : Nat × α => decide (lvl < q.1)) tail (d2, c) outerT2 houter
          simpa using this
        have hd2mem : (d2, c) ∈ tail := by
          have hmem : (d2, c) ∈ tail.dropWhile (fun q => decide (lvl < q.1)) := by
            rw [houter]
            simp
          exact (List.dropWhile_suffix _).subset hmem
        have hd2eq : d2 = lvl := by
          have h1 : lvl ≤ d2 := by
            have := (List.all_eq_true.mp hgeT) _ hd2mem
            simpa using this
          simp only [decide_eq_false_iff_not] at hd2f
          omega
        rw [hd2eq] at houter
        have hnp2 : ¬ ((specRun ([PTree.node b []] :: (PTree.node x cs :: m2) :: rest)
            (tail.takeWhile (fun q => decide (lvl < q.1)))).length ≤ lvl) := by
          omega
        have hstep2 : specStep (specRun ([PTree.node b []] :: (PTree.node x cs :: m2) :: rest)
              (tail.takeWhile (fun q => decide (lvl < q.1)))) (lvl, c)
            = (PTree.node c [] :: PTree.node x (cs ++ specForest (lvl + 1)
                ((lvl + 1, b) :: tail.takeWhile (fun q => decide (lvl < q.1)))) :: m2) :: rest := by
          simp only [specStep, if_neg hnp2, hKpop]
        have hge2 : allGE lvl outerT2 = true := by
          simp only [allGE, List.all_eq_true]
          intro p hp
          have hmem : p ∈ tail.dropWhile (fun q => decide (lvl < q.1)) := by
            rw [houter]
            exact List.mem_cons_of_mem _ hp
          exact (List.all_eq_true.mp hgeT) _ ((List.dropWhile_suffix _).subset hmem)
        have hwf2 : wfChain lvl outerT2 = true := by
          have hteq : tail.takeWhile (fun q => decide (lvl < q.1)) ++ (lvl, c) :: outerT2
              = tail := by
            rw [← houter]
            exact htail
          apply wfChain_middle (lvl + 1) (tail.takeWhile (fun q => decide (lvl < q.1))) lvl c
          rw [hteq]
          exact hwfT
        obtain ⟨ih2len, ih2pop⟩ := specRun_hang outerT2 lvl c []
          (PTree.node x (cs ++ specForest (lvl + 1)
            ((lvl + 1, b) :: tail.takeWhile (fun q => decide (lvl < q.1)))) :: m2) rest
          hrest hge2 hwf2
        have hrunF : specRun ((PTree.node x cs :: m2) :: rest) ((lvl + 1, b) :: tail)
            = specRun ((PTree.node c [] :: PTree.node x (cs ++ specForest (lvl + 1)
                ((lvl + 1, b) :: tail.takeWhile (fun q => decide (lvl < q.1)))) :: m2) :: rest)
                outerT2 := by
          rw [hrun1, houter]
          show specRun (specStep (specRun ([PTree.node b []] :: (PTree.node x cs :: m2) :: rest)
              (tail.takeWhile (fun q => decide (lvl < q.1)))) (lvl, c)) outerT2 = _
          rw [hstep2]
        rw [hrunF]
        refine ⟨ih2len, ?_⟩
        rw [ih2pop, specHang_cascade lvl x b c cs m2 (lvl + 1) lvl tail outerT2 (by omega) houter]
termination_by ps lvl _ _ _ rest _ _ _ => ps.length
decreasing_by
  · simp only [List.length_cons]
    omega
  · exact Nat.lt_succ_of_le (List.takeWhile_prefix _).length_le
  · have hle : ((d2, c) :: outerT2).length ≤ tail.length := by
      rw [← houter]
      exact (List.dropWhile_suffix _).length_le
    simp only [List.length_cons] at hle ⊢
    omega

theorem buildForest_wellFormed {α : Type} (w : Nat) (hw : 0 < w) (ps : List (Nat × α))
    (hwf : wellFormed ps = true) :
    buildForest (scaleDepths w ps) = specForest 0 ps := by
  cases ps with
  | nil => simp [buildForest, scaleDepths, collapse, initState, specForest]
  | cons p tail =>
    obtain ⟨d, a⟩ := p
    simp only [wellFormed, Bool.and_eq_true, decide_eq_true_eq] at hwf
    obtain ⟨hd0, hchain⟩ := hwf
    subst hd0
    have h1 : stepLine (initState α) (w * 0) a = encSt w [[PTree.node a []]] := by
      simp [stepLine, initState, encSt, encFrames]
    have hrun := sim_run w hw tail [[PTree.node a []]] (by simp) (by simpa using hchain)
    obtain ⟨hlen, hpop⟩ := specRun_hang tail 0 a [] [] [] rfl
      (by simp [allGE, List.all_eq_true]) hchain
    have hbf : buildForest (scaleDepths w ((0, a) :: tail))
        = collapse (encSt w (specRun [[PTree.node a []]] tail)).top
            (encSt w (specRun [[PTree.node a []]] tail)).below := by
      simp only [buildForest, scaleDepths, List.map_cons, List.foldl_cons]
      rw [h1]
      simp only [scaleDepths] at hrun
      rw [hrun]
    rw [hbf]
    cases hSS : specRun [[PTree.node a []]] tail with
    | nil =>
      rw [hSS] at hlen
      simp at hlen
    | cons l rest2 =>
      rw [hSS] at hpop
      rw [encSt_cons]
      show collapse ⟨if rest2.isEmpty then none else some (w * rest2.length), l⟩
        (encFrames w rest2) = _
      rw [collapse_enc w rest2 l]
      have hcount : (l :: rest2).length - 1 - 0 = (l :: rest2).length - 1 := by omega
      rw [hcount] at hpop
      simp only [collapseS, hpop]
      exact specHang_single_rev 0 a 0 tail

theorem stepLine_decrease_attach {α : Type} (st : BState α) (i : Nat) (a : α) (ci : Nat)
    (hci : st.curIndent = some ci) (hlt : i < ci)
    (hsome : st.below ≠ [] → st.top.indent = some ci)
    (hlast : ∀ z, (st.top :: st.below).getLast? = some z → z.indent = none) :
    ∃ j g gs,
      (st.top :: st.below).drop j = g :: gs ∧
      (∀ h ∈ (st.top :: st.below).take j, admitsB i h = false) ∧
      admitsB i g = true ∧
      (stepLine st i a).top.indent = g.indent ∧
      (stepLine st i a).below = gs ∧
      (stepLine st i a).top.rnodes.head? = some (PTree.node a []) := by
  obtain ⟨j, g, gs, hdrop, htake, hadm, hind, hbelow⟩ :=
    popLoop_nearest st.below ci i st.top hlt hsome hlast
  have hne : ¬ i = ci := by omega
  have hnlt : ¬ ci < i := by omega
  refine ⟨j, g, gs, hdrop, htake, hadm, ?_, ?_, ?_⟩
  · simp [stepLine, hci, hne, hnlt, hind]
  · simp [stepLine, hci, hne, hnlt, hbelow]
  · simp [stepLine, hci, hne, hnlt]

/-- C6: when a line's leading-space count decreases below the current
indent, `parse_indented_list` attaches the new node to the nearest
enclosing open frame whose recorded indent is smaller or equal (the root
frame, recorded `None`, admits any indent), exactly the nearer frames
being skipped, and no error is raised (the builder is total); and for
every well-formed indented list (first line at depth zero, depth steps of
at most one, a fixed positive indent width per level) the built forest is
`specForest`, in which the parent of a node at depth d is the nearest
preceding node at depth d - 1 and siblings keep line order. -/
theorem parse_indented_list_attachment :
    (∀ (α : Type) (st : BState α) (i : Nat) (a : α) (ci : Nat),
      st.curIndent = some ci → i < ci →
      (st.below ≠ [] → st.top.indent = some ci) →
      (∀ z, (st.top :: st.below).getLast? = some z → z.indent = none) →
      ∃ j g gs,
        (st.top :: st.below).drop j = g :: gs ∧
        (∀ h ∈ (st.top :: st.below).take j, admitsB i h = false) ∧
        admitsB i g = true ∧
        (stepLine st i a).top.indent = g.indent ∧
        (stepLine st i a).below = gs ∧
        (stepLine st i a).top.rnodes.head? = some (PTree.node a []))
    ∧ (∀ (α : Type) (w : Nat) (ps : List (Nat × α)), 0 < w → wellFormed ps = true →
        buildForest (scaleDepths w ps) = specForest 0 ps) :=
  ⟨fun _ st i a ci h1 h2 h3 h4 => stepLine_decrease_attach st i a ci h1 h2 h3 h4,
   fun _ w ps hw hwf => buildForest_wellFormed w hw ps hwf⟩

/-- Witness: the attachment statement applied at a concrete stack whose
top frame records indent 4 over frames at 2 and the root, with a line at
indent 3, and the well-formed equivalence applied at a concrete two-line
list with two spaces per level. -/
theorem parse_indented_list_attachment_witness :
    (∃ j g gs,
        ((⟨some 4, []⟩ : Frame Nat) :: [⟨some 2, []⟩, ⟨none, []⟩]).drop j = g :: gs ∧
        (∀ h ∈ ((⟨some 4, []⟩ : Frame Nat) :: [⟨some 2, []⟩, ⟨none, []⟩]).take j,
          admitsB 3 h = false) ∧
        admitsB 3 g = true ∧
        (stepLine ⟨some 4, ⟨some 4, []⟩, [⟨some 2, []⟩, ⟨none, []⟩]⟩ 3 9).top.indent
          = g.indent ∧
        (stepLine ⟨some 4, ⟨some 4, []⟩, [⟨some 2, []⟩, ⟨none, []⟩]⟩ 3 9).below = gs ∧
        (stepLine ⟨some 4, ⟨some 4, []⟩, [⟨some 2, []⟩, ⟨none, []⟩]⟩ 3 9).top.rnodes.head?
          = some (PTree.node 9 []))
      ∧ buildForest (scaleDepths 2 [(0, 10), (1, 20)]) = specForest 0 [(0, 10), (1, 20)] := by
  constructor
  · exact parse_indented_list_attachment.1 Nat
      ⟨some 4, ⟨some 4, []⟩, [⟨some 2, []⟩, ⟨none, []⟩]⟩ 3 9 4 rfl (by omega) (fun _ => rfl)
      (by
        intro z hz
        have h0 : ((⟨some 4, []⟩ : Frame Nat) :: [⟨some 2, []⟩, ⟨none, []⟩]).getLast?
            = some ⟨none, []⟩ := rfl
        rw [h0] at hz
        injection hz with h
        rw [← h])
  · exact parse_indented_list_attachment.2 Nat 2 [(0, 10), (1, 20)] (by omega) rfl

theorem find?_reverse_range (P : Nat → Bool) :
    ∀ (n g : Nat), g ≤ n → P g = true → (∀ j, g < j → j ≤ n → P j = false) →
      (List.range (n + 1)).reverse.find? P = some g
  | 0, g, hg, hP, _ => by
    have hg0 : g = 0 := by omega
    subst hg0
    have hr : (List.range 1).reverse = [0] := rfl
    rw [hr]
    simp [List.find?, hP]
  | n + 1, g, hg, hP, hF => by
    have hrev : (List.range (n + 2)).reverse = (n + 1) :: (List.range (n + 1)).reverse := by
      rw [List.range_succ, List.reverse_append]
      rfl
    rw [hrev]
    by_cases hgn : g = n + 1
    · subst hgn
      simp [List.find?, hP]
    · have hfail : P (n + 1) = false := hF (n + 1) (by omega) le_rfl
      have ih := find?_reverse_range P n g (by omega) hP
        (fun j h1 h2 => hF j h1 (by omega))
      simp [List.find?, hfail, ih]

theorem exists_last_hash_split :
    ∀ l : List Char, '#' ∈ l → ∃ pre post, l = pre ++ '#' :: post ∧ '#' ∉ post
  | [], hmem => by simp at hmem
  | c :: t, hmem => by
    by_cases ht : '#' ∈ t
    · obtain ⟨pre, post, heq, hno⟩ := exists_last_hash_split t ht
      exact ⟨c :: pre, post, by rw [heq]; rfl, hno⟩
    · have hc : c = '#' := by
        rcases List.mem_cons.mp hmem with h | h
        · exact h.symm
        · exact absurd h ht
      exact ⟨[], t, by rw [hc]; rfl, ht⟩

theorem commentHashAt_false (l : List Char) (j : Nat) (h : '#' ∉ l.drop j) :
    commentHashAt l j = false := by
  unfold commentHashAt
  simp only [decide_eq_false_iff_not]
  intro hc
  cases hdw : (l.drop j).dropWhile pySpace with
  | nil => rw [hdw] at hc; simp at hc
  | cons c t =>
    rw [hdw] at hc
    simp only [List.head?] at hc
    injection hc with hc1
    apply h
    apply (List.dropWhile_suffix pySpace).subset
    rw [hdw, ← hc1]
    exact List.mem_cons_self _ _

/-- C2 (amended): for every line containing a `#`, the comment stripping
step of `parse_layout_spec` removes everything from the last `#` to the
end of the line (the greedy `(.*)` of `comment_re` claims as much of the
line as possible), regardless of quoting. -/
theorem stripComment_last_hash (l : List Char) (hmem : '#' ∈ l) :
    ∃ pre post, l = pre ++ '#' :: post ∧ '#' ∉ post ∧ stripComment l = pre := by
  obtain ⟨pre, post, heq, hno⟩ := exists_last_hash_split l hmem
  refine ⟨pre, post, heq, hno, ?_⟩
  have hglen : pre.length ≤ l.length := by
    rw [heq]
    simp
  have hPg : commentHashAt l pre.length = true := by
    unfold commentHashAt
    rw [heq, List.drop_left]
    rw [List.dropWhile_cons_of_neg (by simp [pySpace])]
    simp
  have hFail : ∀ j, pre.length < j → j ≤ l.length → commentHashAt l j = false := by
    intro j h1 _
    apply commentHashAt_false
    intro hc
    apply hno
    have hdropped : l.drop j = ('#' :: post).drop (j - pre.length) := by
      rw [heq]
      rw [show j = pre.length + (j - pre.length) from by omega]
      rw [List.drop_append]
      congr 1
      omega
    rw [hdropped] at hc
    have hk : j - pre.length = (j - pre.length - 1) + 1 := by omega
    rw [hk] at hc
    simp only [List.drop_succ_cons] at hc
    exact List.drop_subset _ post hc
  have hsplit : commentSplit l = some pre.length := by
    unfold commentSplit
    exact find?_reverse_range (commentHashAt l) l.length pre.length hglen hPg hFail
  unfold stripComment
  rw [hsplit]
  show List.take pre.length l = pre
  rw [heq]
  exact List.take_left pre ('#' :: post)

/-- Witness: the amended comment stripping statement at the line x#y. -/
theorem stripComment_last_hash_witness :
    '#' ∈ ('x' :: '#' :: 'y' :: []) ∧
      ∃ pre post, ('x' :: '#' :: 'y' :: []) = pre ++ '#' :: post ∧ '#' ∉ post ∧
        stripComment ('x' :: '#' :: 'y' :: []) = pre :=
  ⟨by decide, stripComment_last_hash ('x' :: '#' :: 'y' :: []) (by decide)⟩

/-- C2 counterexample: on the line `a#b#c` the code keeps `a#b`, stripping
from the last `#`; the claim's strip-from-first-`#` reading would keep
only `a`. -/
theorem stripComment_not_first_hash :
    stripComment ('a' :: '#' :: 'b' :: '#' :: 'c' :: []) = 'a' :: '#' :: 'b' :: [] ∧
      ¬ stripComment ('a' :: '#' :: 'b' :: '#' :: 'c' :: []) = 'a' :: [] := by
  constructor
  · decide
  · decide

theorem gate_spec (nw nm : Nat) :
    ((if nw = 0 ∧ nm = 0 then some SecErr.missingSection
        else if nw > 1 then some SecErr.multipleWidgetSections else none)
          = some SecErr.missingSection
        ↔ nw = 0 ∧ nm = 0)
      ∧ ((if nw = 0 ∧ nm = 0 then some SecErr.missingSection
        else if nw > 1 then some SecErr.multipleWidgetSections else none)
          = some SecErr.multipleWidgetSections
        ↔ 2 ≤ nw)
      ∧ ((if nw = 0 ∧ nm = 0 then some SecErr.missingSection
        else if nw > 1 then some SecErr.multipleWidgetSections else none) = none
        ↔ (nw = 1 ∨ (nw = 0 ∧ 1 ≤ nm))) := by
  by_cases h1 : nw = 0 ∧ nm = 0 <;> by_cases h2 : nw > 1 <;>
    simp [h1, h2] <;> omega

/-- C3: the orchestrator's section gate raises a missing-section
LayoutError exactly when there are zero widgets sections and zero menu
sections, a multiple-widgets LayoutError exactly when there are two or
more widgets sections, and passes exactly when there is one widgets
section or none with at least one menu section. -/
theorem section_count_gate (names : List String) :
    (sectionCountCheck names = some SecErr.missingSection
        ↔ (names.filter (fun n => decide (n = "widgets"))).length = 0
            ∧ (names.filter (fun n => decide (n = "menu"))).length = 0)
      ∧ (sectionCountCheck names = some SecErr.multipleWidgetSections
        ↔ 2 ≤ (names.filter (fun n => decide (n = "widgets"))).length)
      ∧ (sectionCountCheck names = none
        ↔ ((names.filter (fun n => decide (n = "widgets"))).length = 1
            ∨ ((names.filter (fun n => decide (n = "widgets"))).length = 0
                ∧ 1 ≤ (names.filter (fun n => decide (n = "menu"))).length))) :=
  gate_spec (names.filter (fun n => decide (n = "widgets"))).length
    (names.filter (fun n => decide (n = "menu"))).length

theorem validateManagers_isSome :
    ∀ idx : List (Option WidgetSpec × List (PTree WidgetSpec)),
      (validateManagers idx).isSome = true
        ↔ ∃ pg ∈ idx, pg.2 ≠ [] ∧ 1 < ((resolvedManagers pg.2).dedup).length
  | [] => by simp [validateManagers]
  | (parent, g) :: rest => by
    by_cases hg : g.isEmpty
    · have hge : g = [] := by simpa using hg
      subst hge
      simp [validateManagers, validateManagers_isSome rest]
    · have hgne : g ≠ [] := by simpa using hg
      by_cases hu : ((resolvedManagers g).dedup).length = 1
      · have hnot : ¬ (1 < ((resolvedManagers g).dedup).length) := by omega
        simp [validateManagers, hg, hu, validateManagers_isSome rest, hnot, hgne]
      · have hlen1 : 1 ≤ ((resolvedManagers g).dedup).length := by
          have hne2 : (resolvedManagers g).dedup ≠ [] := by
            intro h
            rw [List.dedup_eq_nil] at h
            simp only [resolvedManagers, List.map_eq_nil_iff] at h
            exact hgne h
          have := List.length_pos.mpr hne2
          omega
        have hone : 1 < ((resolvedManagers g).dedup).length := by omega
        simp [validateManagers, hg, hu]
        exact Or.inl ⟨hgne, hone⟩

/-- C4: the post-merge validation inspects every container group including
the root; it fails exactly when some group with at least one direct child
resolves (treating an unset manager as pack) to more than one distinct
manager, and the reported data names the container and the distinct
managers: on a container frm with two pack-defaulted children and one
explicit grid child, the reported conflict is frm with pack and grid. -/
theorem manager_validation :
    (∀ ws : List (PTree WidgetSpec),
      (validateManagers (index_containers ws)).isSome = true
        ↔ ∃ pg ∈ index_containers ws, pg.2 ≠ []
            ∧ 1 < ((resolvedManagers pg.2).dedup).length)
      ∧ validateManagers (index_containers
          [PTree.node ⟨"frm", "Frame", "", none, []⟩
            [PTree.node ⟨"c1", "Button", "", none, []⟩ [],
             PTree.node ⟨"c2", "Button", "", none, []⟩ [],
             PTree.node ⟨"c3", "Button", "", some "grid", []⟩ []]])
        = some ⟨"frm", ["pack", "grid"]⟩ :=
  ⟨fun ws => validateManagers_isSome (index_containers ws), by
    simp [validateManagers, index_containers, subContainers, resolvedManagers, List.dedup,
      List.pwFilter]⟩

theorem find?_map_replace (k v : String) :
    ∀ d : List (String × String),
      (d.map (fun kv => if kv.1 = k then (k, v) else kv)).find? (fun kv => decide (kv.1 = k))
        = if d.any (fun kv => decide (kv.1 = k)) then some (k, v) else none
  | [] => by simp
  | a :: d => by
    by_cases ha : a.1 = k
    · simp [List.find?, ha, find?_map_replace k v d]
    · have hd : decide (a.1 = k) = false := by simp [ha]
      simp [List.find?, ha, hd, find?_map_replace k v d]
      rw [hd, Bool.false_or]

theorem find?_map_replace_other (k k2 v : String) (hne : k ≠ k2) :
    ∀ d : List (String × String),
      (d.map (fun kv => if kv.1 = k2 then (k2, v) else kv)).find? (fun kv => decide (kv.1 = k))
        = d.find? (fun kv => decide (kv.1 = k))
  | [] => by simp
  | a :: d => by
    by_cases ha : a.1 = k2
    · have hk2 : ¬ (k2 = k) := fun h => hne h.symm
      have hak : ¬ (a.1 = k) := by rw [ha]; exact hk2
      simp [List.find?, ha, hk2, hak, find?_map_replace_other k k2 v hne d]
    · by_cases hak : a.1 = k
      · have hdk : decide (a.1 = k) = true := by simp [hak]
        simp [List.find?, if_neg ha, hdk]
      · have hdk : decide (a.1 = k) = false := by simp [hak]
        simp [List.find?, if_neg ha, hdk, find?_map_replace_other k k2 v hne d]

theorem pGet_dictInsert_same (d : List (String × String)) (k v : String) :
    pGet (dictInsert d k v) k = some v := by
  unfold pGet dictInsert
  by_cases hany : d.any (fun kv => decide (kv.1 = k))
  · rw [if_pos hany, find?_map_replace, if_pos hany]
    rfl
  · rw [if_neg hany, List.find?_append]
    have hnone : d.find? (fun kv => decide (kv.1 = k)) = none := by
      rw [List.find?_eq_none]
      intro x hx hxk
      exact hany (List.any_eq_true.mpr ⟨x, hx, hxk⟩)
    rw [hnone]
    simp [List.find?]

theorem pGet_dictInsert_other (d : List (String × String)) (k k2 v : String) (hne : k ≠ k2) :
    pGet (dictInsert d k2 v) k = pGet d k := by
  unfold pGet dictInsert
  by_cases hany : d.any (fun kv => decide (kv.1 = k2))
  · rw [if_pos hany, find?_map_replace_other k k2 v hne]
  · rw [if_neg hany, List.find?_append]
    cases hfd : d.find? (fun kv => decide (kv.1 = k)) with
    | some a => simp
    | none =>
      have hk2 : ¬ (k2 = k) := fun h => hne h.symm
      simp [List.find?, hk2]

theorem any_map_replace (k k2 v : String) (hne : k ≠ k2) :
    ∀ d : List (String × String),
      (d.map (fun kv => if kv.1 = k2 then (k2, v) else kv)).any (fun kv => decide (kv.1 = k))
        = d.any (fun kv => decide (kv.1 = k))
  | [] => by simp
  | a :: d => by
    by_cases ha : a.1 = k2
    · have hk2 : ¬ (k2 = k) := fun h => hne h.symm
      have hak : ¬ (a.1 = k) := by rw [ha]; exact hk2
      simp [ha, hk2, hak, any_map_replace k k2 v hne d]
    · simp [ha, any_map_replace k k2 v hne d]

theorem pHas_dictInsert_other (d : List (String × String)) (k k2 v : String) (hne : k ≠ k2) :
    pHas (dictInsert d k2 v) k = pHas d k := by
  unfold pHas dictInsert
  by_cases hany : d.any (fun kv => decide (kv.1 = k2))
  · rw [if_pos hany, any_map_replace k k2 v hne]
  · rw [if_neg hany, List.any_append]
    have hk2 : ¬ (k2 = k) := fun h => hne h.symm
    simp [hk2]

theorem assignDefaults_length : ∀ (w : List WidgetSpec) (nr : Int),
    (assignDefaults w nr).length = w.length
  | [], _ => rfl
  | c :: cs, nr => by
    by_cases hmgr : c.layout_mgr = some "grid"
    · simp [assignDefaults, hmgr, assignDefaults_length cs]
    · simp [assignDefaults, hmgr, assignDefaults_length cs]

theorem assignDefaults_nth : ∀ (w : List WidgetSpec) (nr : Int) (j : Nat) (c : WidgetSpec),
    w[j]? = some c →
    ∃ c2, (assignDefaults w nr)[j]? = some c2 ∧
      (¬ c.layout_mgr = some "grid" → c2 = c) ∧
      (needsRow c = true → pGet c2.layout_params "row"
          = some (toString (nr + ((w.take j).countP needsRow : Int)))) ∧
      (needsCol c = true → pGet c2.layout_params "column" = some "0")
  | [], _, j, c, h => by simp at h
  | x :: xs, nr, 0, c, h => by
    have hc : x = c := by simpa using h
    subst hc
    by_cases hmgr : x.layout_mgr = some "grid"
    · by_cases hrow : pHas x.layout_params "row"
      · by_cases hcol : pHas x.layout_params "column"
        · refine ⟨x, ?_, fun _ => rfl, ?_, ?_⟩
          · simp [assignDefaults, hmgr, hrow, hcol]
          · intro hn; simp [needsRow, hrow] at hn
          · intro hn; simp [needsCol, hcol] at hn
        · refine ⟨{ x with layout_params := dictInsert x.layout_params "column" "0" }, ?_,
            fun hg => absurd hmgr hg, ?_, ?_⟩
          · simp [assignDefaults, hmgr, hrow, hcol]
          · intro hn; simp [needsRow, hrow] at hn
          · intro hn; exact pGet_dictInsert_same x.layout_params "column" "0"
      · have hColEq : pHas (dictInsert x.layout_params "row" (toString nr)) "column"
            = pHas x.layout_params "column" :=
          pHas_dictInsert_other x.layout_params "column" "row" (toString nr) (by decide)
        by_cases hcol : pHas x.layout_params "column"
        · refine ⟨{ x with layout_params := dictInsert x.layout_params "row" (toString nr) }, ?_,
            fun hg => absurd hmgr hg, ?_, ?_⟩
          · simp [assignDefaults, hmgr, hrow, hColEq, hcol]
          · intro hn
            simp [pGet_dictInsert_same]
          · intro hn; simp [needsCol, hcol] at hn
        · refine ⟨{ x with layout_params := dictInsert (dictInsert x.layout_params "row" (toString nr)) "column" "0" }, ?_, fun hg => absurd hmgr hg, ?_, ?_⟩
          · simp [assignDefaults, hmgr, hrow, hColEq, hcol]
          · intro hn
            have h1 : pGet (dictInsert (dictInsert x.layout_params "row" (toString nr))
                  "column" "0") "row"
                = pGet (dictInsert x.layout_params "row" (toString nr)) "row" :=
              pGet_dictInsert_other _ "row" "column" "0" (by decide)
            simp [h1, pGet_dictInsert_same]
          · intro hn
            exact pGet_dictInsert_same _ "column" "0"
    · refine ⟨x, ?_, fun _ => rfl, ?_, ?_⟩
      · simp [assignDefaults, hmgr]
      · intro hn; simp [needsRow, hmgr] at hn
      · intro hn; simp [needsCol, hmgr] at hn
  | x :: xs, nr, j + 1, c, h => by
    have hx : xs[j]? = some c := by simpa using h
    have htail : (assignDefaults (x :: xs) nr)[j + 1]?
        = (assignDefaults xs (if needsRow x then nr + 1 else nr))[j]? := by
      by_cases hmgr : x.layout_mgr = some "grid"
      · by_cases hrow : pHas x.layout_params "row"
        · simp [assignDefaults, hmgr, hrow, needsRow]
        · simp [assignDefaults, hmgr, hrow, needsRow]
      · simp [assignDefaults, hmgr, needsRow]
    obtain ⟨c2, h1, h2, h3, h4⟩ :=
      assignDefaults_nth xs (if needsRow x then nr + 1 else nr) j c hx
    refine ⟨c2, ?_, h2, ?_, h4⟩
    · rw [htail]; exact h1
    · intro hn
      rw [h3 hn]
      congr 2
      by_cases hxr : needsRow x
      · simp [List.take_succ_cons, List.countP_cons, hxr]
        ring
      · simp [List.take_succ_cons, List.countP_cons, hxr]

/-- C5 (amended): in the final pass of `apply_grid_attributes`, when no direct
child carries an explicit `row` layout parameter the pass fails (Python's
`max()` on an empty sequence, re-raised as a LayoutError); otherwise, with
`maxRow` the maximum explicit integer row value, the pass succeeds, keeps one
entry per child, assigns rows `maxRow+1, maxRow+2, ...` in declared sibling
order to the grid-managed children still lacking an explicit row, and column
`"0"` to the grid-managed children lacking an explicit column — children
whose layout manager is not `grid` are left unchanged, contrary to the
claim's "every child". -/
theorem grid_default_assignment (w : List WidgetSpec) :
    ((∀ c ∈ w, pGet c.layout_params "row" = none) → setDefaultGridCoords w = .error ()) ∧
    ∀ vals maxRow,
      (w.filterMap (fun c => pGet c.layout_params "row")).mapM (fun s => pyInt s.toList)
          = some vals →
      vals.max? = some maxRow →
      setDefaultGridCoords w = .ok (assignDefaults w (maxRow + 1)) ∧
      (assignDefaults w (maxRow + 1)).length = w.length ∧
      ∀ j c, w[j]? = some c →
        ∃ c2, (assignDefaults w (maxRow + 1))[j]? = some c2 ∧
          (¬ c.layout_mgr = some "grid" → c2 = c) ∧
          (needsRow c = true → pGet c2.layout_params "row"
              = some (toString (maxRow + 1 + ((w.take j).countP needsRow : Int)))) ∧
          (needsCol c = true → pGet c2.layout_params "column" = some "0") := by
  constructor
  · intro hnone
    have hnil : w.filterMap (fun c => pGet c.layout_params "row") = [] := by
      rw [List.filterMap_eq_nil_iff]
      exact hnone
    unfold setDefaultGridCoords
    rw [hnil]
    rfl
  · intro vals maxRow hvals hmax
    refine ⟨?_, assignDefaults_length w (maxRow + 1), ?_⟩
    · unfold setDefaultGridCoords
      rw [hvals]
      show (match vals.max? with
        | none => Except.error ()
        | some maxRow => Except.ok (assignDefaults w (maxRow + 1)))
          = Except.ok (assignDefaults w (maxRow + 1))
      rw [hmax]
    · intro j c hj
      exact assignDefaults_nth w (maxRow + 1) j c hj

/-- C5 counterexample: the claim says EVERY child still lacking an explicit
row is assigned one, but the assignment loop of `apply_grid_attributes`
touches only children whose layout manager is `grid`.  Here the merge
succeeds and the second child — managed by `pack`, with no `row` parameter —
still has no `row` afterwards. -/
theorem grid_default_assignment_cex :
    ∃ r, setDefaultGridCoords
        [⟨"c1", "B", "", some "grid", [("row", "0")]⟩,
         ⟨"c2", "B", "", some "pack", []⟩] = .ok r ∧
      r.map (fun c => pHas c.layout_params "row") = [true, false] :=
  ⟨[⟨"c1", "B", "", some "grid", [("row", "0"), ("column", "0")]⟩,
    ⟨"c2", "B", "", some "pack", []⟩], rfl, rfl⟩

/-- Witness for `grid_default_assignment`: a children list whose top explicit
row is `5` succeeds with the counter starting at `6`, and a list with no
explicit row fails. -/
theorem grid_default_assignment_witness :
    setDefaultGridCoords
        [⟨"a", "B", "", some "grid", [("row", "5")]⟩,
         ⟨"b", "B", "", some "grid", []⟩]
      = .ok (assignDefaults
          [⟨"a", "B", "", some "grid", [("row", "5")]⟩,
           ⟨"b", "B", "", some "grid", []⟩] 6) ∧
    setDefaultGridCoords [(⟨"z", "B", "", some "grid", []⟩ : WidgetSpec)] = .error () := by
  constructor
  · exact ((grid_default_assignment
        [⟨"a", "B", "", some "grid", [("row", "5")]⟩,
         ⟨"b", "B", "", some "grid", []⟩]).2 [5] 5 rfl rfl).1
  · refine (grid_default_assignment [(⟨"z", "B", "", some "grid", []⟩ : WidgetSpec)]).1 ?_
    intro c hc
    rw [List.mem_singleton] at hc
    subst hc
    rfl

/-! C1: the occupied-origin scan of the grid extractor.  The occupancy
lookup runs before the bound test, so on a fully occupied row the scan
walks off the end of the occupancy row and raises IndexError; the
GridError branch can never be reached, because every occupancy row keeps
the table's column count and the scan only ever stops inside the row on
an unoccupied cell. -/

theorem bind_error_eq {ε α β : Type} (e : ε) (k : α → Except ε β) :
    (Except.error e >>= k) = Except.error e := rfl

theorem bind_ok_eq {ε α β : Type} (a : α) (k : α → Except ε β) :
    (Except.ok a >>= k) = k a := rfl

theorem dropHead (l : List Bool) (n : Nat) : (l.drop n).head? = l[n]? := by
  rw [List.head?_eq_getElem?, List.getElem?_drop, Nat.add_zero]

theorem mGet_error (m : List (List Bool)) (r c : Nat) (e : GridFail)
    (h : mGet m r c = .error e) : e = .indexError := by
  unfold mGet at h
  split at h
  · exact (Except.error.inj h).symm
  · split at h
    · exact (Except.error.inj h).symm
    · exact Except.noConfusion h

theorem mGet_ok_split (m : List (List Bool)) (r c : Nat) (b : Bool)
    (h : mGet m r c = .ok b) : ∃ row, m[r]? = some row ∧ row[c]? = some b := by
  unfold mGet at h
  split at h
  · exact Except.noConfusion h
  · rename_i row hrow
    split at h
    · exact Except.noConfusion h
    · rename_i b2 hb2
      exact ⟨row, hrow, by rw [hb2, Except.ok.inj h]⟩

theorem mGet_of_lookups (m : List (List Bool)) (r c : Nat) (row : List Bool) (b : Bool)
    (h1 : m[r]? = some row) (h2 : row[c]? = some b) : mGet m r c = .ok b := by
  unfold mGet
  rw [h1]
  show (match row[c]? with
    | none => (Except.error GridFail.indexError : Except GridFail Bool)
    | some b => Except.ok b) = Except.ok b
  rw [h2]

theorem mSet_error (m : List (List Bool)) (r c : Nat) (e : GridFail)
    (h : mSet m r c = .error e) : e = .indexError := by
  unfold mSet at h
  split at h
  · exact (Except.error.inj h).symm
  · split at h
    · exact Except.noConfusion h
    · exact (Except.error.inj h).symm

theorem mSet_ok_rowsLen (n : Nat) (m : List (List Bool)) (r c : Nat)
    (m2 : List (List Bool)) (hm : rowsLen m n) (h : mSet m r c = .ok m2) :
    rowsLen m2 n := by
  unfold mSet at h
  split at h
  · exact Except.noConfusion h
  · rename_i row hrow
    split at h
    · have hm2 : m.set r (row.set c true) = m2 := Except.ok.inj h
      rw [← hm2]
      intro row2 hrow2
      rcases List.mem_or_eq_of_mem_set hrow2 with h2 | h2
      · exact hm row2 h2
      · rw [h2, List.length_set]
        exact hm row (List.getElem?_mem hrow)
    · exact Except.noConfusion h

theorem fetchRow_error (cm : List (List Bool)) (rowIdx : Nat) (e : GridFail)
    (h : fetchRow cm rowIdx = .error e) : e = .indexError := by
  unfold fetchRow at h
  split at h
  · exact Except.noConfusion h
  · exact (Except.error.inj h).symm

theorem fetchRow_ok (cm : List (List Bool)) (rowIdx : Nat) (row : List Bool)
    (h : fetchRow cm rowIdx = .ok row) : cm[rowIdx]? = some row := by
  unfold fetchRow at h
  split at h
  · rename_i row2 hrow2
    rw [hrow2, Except.ok.inj h]
  · exact Except.noConfusion h

theorem advanceColGo_spec (cmRow : List Bool) (numCols : Nat) (hlen : cmRow.length = numCols) :
    ∀ (suf : List Bool) (cellCol colOffset : Nat), suf = cmRow.drop cellCol →
      (∀ e, advanceColGo numCols suf cellCol colOffset = .error e → e = .indexError) ∧
      (∀ c2 off2, advanceColGo numCols suf cellCol colOffset = .ok (c2, off2) →
        cmRow[c2]? = some false)
  | [], cellCol, colOffset, hsuf => by
    constructor
    · intro e h
      exact (Except.error.inj h).symm
    · intro c2 off2 h
      exact Except.noConfusion h
  | b :: rest, cellCol, colOffset, hsuf => by
    have hlook : cmRow[cellCol]? = some b := by
      rw [← dropHead, ← hsuf]
      rfl
    have hlt : cellCol < cmRow.length := by
      rcases Nat.lt_or_ge cellCol cmRow.length with h1 | h2
      · exact h1
      · rw [List.getElem?_eq_none h2] at hlook
        exact Option.noConfusion hlook
    have hrest : rest = cmRow.drop (cellCol + 1) := by
      have h1 : cmRow.drop (cellCol + 1) = (cmRow.drop cellCol).tail := by
        rw [← List.drop_drop, List.drop_one]
      rw [h1, ← hsuf]
      rfl
    cases b with
    | true =>
      have hc : cellCol < numCols := by omega
      have hstep : advanceColGo numCols (true :: rest) cellCol colOffset
          = advanceColGo numCols rest (cellCol + 1) (colOffset + 1) := by
        conv_lhs => unfold advanceColGo
        rw [if_pos rfl, if_pos hc]
      rw [hstep]
      exact advanceColGo_spec cmRow numCols hlen rest (cellCol + 1) (colOffset + 1) hrest
    | false =>
      constructor
      · intro e h
        exact Except.noConfusion h
      · intro c2 off2 h
        have hp : ((cellCol, colOffset) : Nat × Nat) = (c2, off2) := Except.ok.inj h
        have hc2 : cellCol = c2 := congrArg Prod.fst hp
        rw [← hc2, hlook]

theorem advanceCol_error (cmRow : List Bool) (numCols : Nat) (hlen : cmRow.length = numCols)
    (cellCol colOffset : Nat) (e : GridFail)
    (h : advanceCol cmRow numCols cellCol colOffset = .error e) : e = .indexError :=
  (advanceColGo_spec cmRow numCols hlen (cmRow.drop cellCol) cellCol colOffset rfl).1 e h

theorem advanceCol_ok (cmRow : List Bool) (numCols : Nat) (hlen : cmRow.length = numCols)
    (cellCol colOffset c2 off2 : Nat)
    (h : advanceCol cmRow numCols cellCol colOffset = .ok (c2, off2)) :
    cmRow[c2]? = some false :=
  (advanceColGo_spec cmRow numCols hlen (cmRow.drop cellCol) cellCol colOffset rfl).2 c2 off2 h

theorem foldlM_inv {β : Type} (n : Nat)
    (f : List (List Bool) → β → Except GridFail (List (List Bool)))
    (hf : ∀ acc b, rowsLen acc n →
      (∀ e, f acc b = .error e → e = .indexError) ∧
      (∀ acc2, f acc b = .ok acc2 → rowsLen acc2 n)) :
    ∀ (l : List β) (acc : List (List Bool)), rowsLen acc n →
      (∀ e, l.foldlM f acc = .error e → e = .indexError) ∧
      (∀ acc2, l.foldlM f acc = .ok acc2 → rowsLen acc2 n)
  | [], acc, hP => by
    constructor
    · intro e h
      exact Except.noConfusion h
    · intro acc2 h
      have h2 : acc = acc2 := Except.ok.inj h
      rw [← h2]
      exact hP
  | b :: l, acc, hP => by
    obtain ⟨hfe, hfo⟩ := hf acc b hP
    cases hb : f acc b with
    | error e1 =>
      constructor
      · intro e h
        rw [List.foldlM_cons, hb, bind_error_eq] at h
        rw [← Except.error.inj h]
        exact hfe e1 hb
      · intro acc2 h
        rw [List.foldlM_cons, hb, bind_error_eq] at h
        exact Except.noConfusion h
    | ok acc1 =>
      have hP1 := hfo acc1 hb
      have hrec := foldlM_inv n f hf l acc1 hP1
      constructor
      · intro e h
        rw [List.foldlM_cons, hb, bind_ok_eq] at h
        exact hrec.1 e h
      · intro acc2 h
        rw [List.foldlM_cons, hb, bind_ok_eq] at h
        exact hrec.2 acc2 h

theorem markCells_inv (n : Nat) (m : List (List Bool)) (r0 hh c0 w : Nat)
    (hm : rowsLen m n) :
    (∀ e, markCells m r0 hh c0 w = .error e → e = .indexError) ∧
    (∀ m2, markCells m r0 hh c0 w = .ok m2 → rowsLen m2 n) := by
  unfold markCells
  apply foldlM_inv n _ _ (List.range hh) m hm
  intro acc dr hacc
  apply foldlM_inv n _ _ (List.range w) acc hacc
  intro acc2 dc hacc2
  constructor
  · intro e h
    exact mSet_error _ _ _ _ h
  · intro acc3 h
    exact mSet_ok_rowsLen n _ _ _ _ hacc2 h

theorem resolveOrigin_error (numCols rowIdx c0 colOffset : Nat) (cm : List (List Bool))
    (hm : rowsLen cm numCols) (e : GridFail)
    (h : resolveOrigin numCols rowIdx c0 colOffset cm = .error e) : e = .indexError := by
  unfold resolveOrigin at h
  revert h
  cases hb : mGet cm rowIdx c0 with
  | error e1 =>
    intro h
    rw [← Except.error.inj h]
    exact mGet_error _ _ _ _ hb
  | ok b =>
    cases b with
    | false =>
      intro h
      exact Except.noConfusion h
    | true =>
      intro h
      have h2 : (fetchRow cm rowIdx >>= fun row =>
          advanceCol row numCols c0 colOffset >>= fun r =>
            checkLanding rowIdx cm r) = Except.error e := h
      revert h2
      cases hf : fetchRow cm rowIdx with
      | error e1 =>
        intro h2
        rw [← Except.error.inj h2]
        exact fetchRow_error _ _ _ hf
      | ok row2 =>
        intro h2
        have hrow2 : cm[rowIdx]? = some row2 := fetchRow_ok _ _ _ hf
        have hrlen : row2.length = numCols := hm row2 (List.getElem?_mem hrow2)
        have h3 : (advanceCol row2 numCols c0 colOffset >>= fun r =>
            checkLanding rowIdx cm r) = Except.error e := h2
        revert h3
        cases hadv : advanceCol row2 numCols c0 colOffset with
        | error e1 =>
          intro h3
          rw [← Except.error.inj h3]
          exact advanceCol_error row2 numCols hrlen _ _ _ hadv
        | ok r1 =>
          intro h3
          obtain ⟨c2, off2⟩ := r1
          have hfalse : row2[c2]? = some false := advanceCol_ok row2 numCols hrlen _ _ _ _ hadv
          have hb2 : mGet cm rowIdx c2 = Except.ok false := mGet_of_lookups _ _ _ _ _ hrow2 hfalse
          have h4 : (mGet cm rowIdx c2 >>= fun b2 =>
              if b2 then Except.error (GridFail.gridError rowIdx)
              else Except.ok ((c2, off2) : Nat × Nat)) = Except.error e := h3
          rw [hb2, bind_ok_eq] at h4
          exact Except.noConfusion h4

theorem processEntries_inv (numCols rowIdx : Nat) :
    ∀ (es : List GridEntry) (i colOffset : Nat) (cm : List (List Bool)) (gd : GridData),
      rowsLen cm numCols →
      (∀ r, processEntries numCols rowIdx es i colOffset cm gd
          ≠ Except.error (GridFail.gridError r)) ∧
      (∀ cm2 gd2, processEntries numCols rowIdx es i colOffset cm gd = .ok (cm2, gd2) →
        rowsLen cm2 numCols)
  | [], i, co, cm, gd, hm => by
    constructor
    · intro r h
      exact Except.noConfusion h
    · intro cm2 gd2 h
      have hp : (cm, gd) = (cm2, gd2) := Except.ok.inj h
      have hc : cm = cm2 := congrArg Prod.fst hp
      rw [← hc]
      exact hm
  | e :: es, i, co, cm, gd, hm => by
    cases hw : e.widget with
    | none =>
      have heq : processEntries numCols rowIdx (e :: es) i co cm gd
          = processEntries numCols rowIdx es (i + 1) co cm gd := by
        simp only [processEntries]
        rw [hw]
      rw [heq]
      exact processEntries_inv numCols rowIdx es (i + 1) co cm gd hm
    | some w =>
      have heq : processEntries numCols rowIdx (e :: es) i co cm gd
          = (resolveOrigin numCols rowIdx (i + co) co cm >>= fun r =>
              markCells cm rowIdx (entrySpans e rowIdx r.1 r.2).2.1 r.1
                  (entrySpans e rowIdx r.1 r.2).1 >>= fun cm1 =>
                processEntries numCols rowIdx es (i + 1) (entrySpans e rowIdx r.1 r.2).2.2.2
                  cm1 (dictInsert gd w (entrySpans e rowIdx r.1 r.2).2.2.1)) := by
        simp only [processEntries]
        rw [hw]
      rw [heq]
      cases hro : resolveOrigin numCols rowIdx (i + co) co cm with
      | error e1 =>
        simp only [bind_error_eq]
        have he1 := resolveOrigin_error numCols rowIdx (i + co) co cm hm e1 hro
        constructor
        · intro r h
          have h2 : e1 = GridFail.gridError r := Except.error.inj h
          rw [he1] at h2
          exact GridFail.noConfusion h2
        · intro cm2 gd2 h
          exact Except.noConfusion h
      | ok r1 =>
        simp only [bind_ok_eq]
        cases hmk : markCells cm rowIdx (entrySpans e rowIdx r1.1 r1.2).2.1 r1.1
            (entrySpans e rowIdx r1.1 r1.2).1 with
        | error e1 =>
          simp only [bind_error_eq]
          have he1 := (markCells_inv numCols cm rowIdx _ _ _ hm).1 e1 hmk
          constructor
          · intro r h
            have h2 : e1 = GridFail.gridError r := Except.error.inj h
            rw [he1] at h2
            exact GridFail.noConfusion h2
          · intro cm2 gd2 h
            exact Except.noConfusion h
        | ok cm1 =>
          simp only [bind_ok_eq]
          have hm1 := (markCells_inv numCols cm rowIdx _ _ _ hm).2 cm1 hmk
          exact processEntries_inv numCols rowIdx es (i + 1) _ cm1 _ hm1

theorem processRows_inv (numCols : Nat) :
    ∀ (rs : List (List GridEntry)) (j : Nat) (cm : List (List Bool)) (gd : GridData),
      rowsLen cm numCols →
      ∀ r, processRows numCols rs j cm gd ≠ Except.error (GridFail.gridError r)
  | [], j, cm, gd, hm => by
    intro r h
    exact Except.noConfusion h
  | rw0 :: rs, j, cm, gd, hm => by
    intro r h
    have heq : processRows numCols (rw0 :: rs) j cm gd
        = (processEntries numCols j rw0 0 0 cm gd >>= fun p =>
            processRows numCols rs (j + 1) p.1 p.2) := by
      simp only [processRows]
    rw [heq] at h
    obtain ⟨hA, hB⟩ := processEntries_inv numCols j rw0 0 0 cm gd hm
    revert h
    cases hpe : processEntries numCols j rw0 0 0 cm gd with
    | error e1 =>
      intro h
      rw [bind_error_eq] at h
      have h2 : e1 = GridFail.gridError r := Except.error.inj h
      rw [h2] at hpe
      exact hA r hpe
    | ok p =>
      intro h
      simp only [bind_ok_eq] at h
      obtain ⟨cm1, gd1⟩ := p
      have hm1 := hB cm1 gd1 hpe
      exact processRows_inv numCols rs (j + 1) cm1 gd1 hm1 r h

theorem gridParse_no_gridError (t : GridTable) (r : Nat) :
    gridParse t ≠ Except.error (GridFail.gridError r) := by
  apply processRows_inv
  intro row hrow
  rw [List.eq_of_mem_replicate hrow]
  exact List.length_replicate _ _

/-- C1 (code bug): on a 1-column table whose first row spans two rows, the
second row's origin cell is occupied, and the occupied-origin scan runs
off the end of the occupancy row: the lookup `cell_map[1][1]` raises
IndexError instead of the claimed GridError.  Moreover the GridError
branch is unreachable for every table: the claim's occupied-row failure
mode and its in-bounds guarantee both fail. -/
theorem grid_occupied_scan_bug :
    gridParse ⟨1, [[⟨some "a", none, some 1⟩], [⟨some "b", none, none⟩]]⟩
      = .error .indexError ∧
    ∀ (t : GridTable) (r : Nat), gridParse t ≠ Except.error (GridFail.gridError r) :=
  ⟨rfl, gridParse_no_gridError⟩

/-- C7: the widget line `x(Foo|) <grid|row=2,column=1>` parses to name `x`,
kind `Foo`, empty constructor arguments, layout manager `grid` and layout
parameters row=2, column=1 — whatever class name is being compiled — and
any line whose stripped form fails the widget grammar raises a WidgetError
naming that stripped line. -/
theorem widget_line_parse :
    (∀ cn, parse_widget_spec cn ("x(Foo|) <grid|row=2,column=1>".toList)
      = .ok ⟨"x", "Foo", "", some "grid", [("row", "2"), ("column", "1")]⟩) ∧
    ∀ cn l, widgetMatch (stripLayoutBlock l) = none →
      parse_widget_spec cn l = .error (.widgetError cn (String.mk (stripLayoutBlock l))) := by
  constructor
  · intro cn
    rfl
  · intro cn l h
    unfold parse_widget_spec
    rw [h]

/-- C8: the widget section `a(Button)` / `  b(Button)` parses to a single
root `a` with one child `b`, and code emission is a pre-order walk: `a` is
constructed under the supplied parent reference first, then `b` under the
freshly created `self.a`. -/
theorem widget_example_emission :
    widgetSectionParse none ["a(Button)".toList, "  b(Button)".toList]
      = .ok [PTree.node ⟨"a", "Button", "", none, []⟩
              [PTree.node ⟨"b", "Button", "", none, []⟩ []]] ∧
    ∀ parent : String,
      generate_widget_code (fun _ _ => false) "tk"
          [PTree.node (⟨"a", "Button", "", none, []⟩ : WidgetSpec)
            [PTree.node ⟨"b", "Button", "", none, []⟩ []]] parent
        = ["self.a = Button(" ++ parent ++ ")", "self.a.pack()",
           "self.b = Button(self.a)", "self.b.pack()"] := by
  refine ⟨rfl, ?_⟩
  intro parent
  simp [generate_widget_code, widgetCode, rstripDots, pyJoin, pyStrip, pyLstrip, pyRstrip]

/-- C9: menu line classification is total and three-way: a separator line
yields the separator item (empty label and parameter text), a line the menu
grammar matches yields an item of the marker-determined kind, and any
other line yields a normal item whose label argument is the whole line
with empty trailing parameters. -/
theorem menu_classification (line : List Char) :
    (menuSepMatch line = true →
      parse_menu_item line = mkMenuSpec [] ("separator".toList) []) ∧
    (menuSepMatch line = false → ∀ mk lb ps, menuMatch line = some (mk, lb, ps) →
      parse_menu_item line = mkMenuSpec lb (markerKind mk) ps) ∧
    (menuSepMatch line = false → menuMatch line = none →
      parse_menu_item line = mkMenuSpec line ("normal".toList) []) ∧
    mkMenuSpec [] ("separator".toList) [] = ⟨"", "separator", "", -1⟩ := by
  refine ⟨?_, ?_, ?_, by decide⟩
  · intro h
    simp [parse_menu_item, h]
  · intro h mk lb ps hm
    simp [parse_menu_item, h, hm]
  · intro h hm
    simp [parse_menu_item, h, hm]

/-- Witness for `menu_classification` at three concrete lines: a separator
`----x`, a radio item `* foo`, and the unclosed quote `"ab` that falls back
to a normal item labelled by the whole line. -/
theorem menu_classification_witness :
    (menuSepMatch ("----x".toList) = true ∧
      parse_menu_item ("----x".toList) = mkMenuSpec [] ("separator".toList) []) ∧
    (menuSepMatch ("* foo".toList) = false ∧
      menuMatch ("* foo".toList) = some (some ['*'], "foo".toList, []) ∧
      parse_menu_item ("* foo".toList)
        = mkMenuSpec ("foo".toList) (markerKind (some ['*'])) []) ∧
    (menuSepMatch ("\"ab".toList) = false ∧ menuMatch ("\"ab".toList) = none ∧
      parse_menu_item ("\"ab".toList)
        = mkMenuSpec ("\"ab".toList) ("normal".toList) []) :=
  ⟨⟨by decide, (menu_classification ("----x".toList)).1 (by decide)⟩,
   ⟨by decide, by decide,
    (menu_classification ("* foo".toList)).2.1 (by decide)
      (some ['*']) ("foo".toList) [] (by decide)⟩,
   ⟨by decide, by decide,
    (menu_classification ("\"ab".toList)).2.2.1 (by decide) (by decide)⟩⟩

end Guidoc
